import Mathlib

/-!
Verification of the meraki-client-counter aggregation core against its
specification.

The development shallowly embeds the parts of the program that the claims
touch:

* a proleptic-Gregorian calendar layer mirroring CPython's `datetime`
  internals (`_ymd2ord`, `_ord2ymd`, `_is_leap`, the `_DAYS_BEFORE_MONTH`
  and `_DAYS_IN_MONTH` tables), since `data_processor.py` computes bucket
  keys with `datetime` arithmetic and `strftime`;
* the bucket-key rendering used by `strftime` format strings
  `%Y-%m-%d`, `%Y-W%U`, `%Y-%m` and `%Y-%m-%d %H:00` (glibc semantics:
  `%Y` is the unpadded year, `%m`, `%d`, `%H`, `%U` are zero-padded to
  two digits, and `%U` is `(tm_yday + 7 - tm_wday) / 7` with Sunday as
  day 0 of the week);
* `DataProcessor` from `src/data_processor.py` (grouping, unique counts,
  averages, randomized-MAC test);
* `ClientDatabase.store_clients` from `src/database.py`, including
  SQLite's treatment of the `UNIQUE(mac_address, last_seen, network_id)`
  constraint (a NULL `network_id` never collides: SQLite regards NULLs
  as distinct) and of the NOT NULL columns (violations raise
  `IntegrityError`, which the loop counts as a duplicate);
* the incremental collection planner from `collect_client_data` in
  `src/main.py`.

Real numbers of the source (float division, `round(x, 2)`) are modelled
exactly over `ℚ`; timestamps are modelled as Python ordinals (days since
0001-01-01, `date.toordinal`) plus a time of day, and the ISO-8601 parser
`datetime.fromisoformat` is treated as an abstract partial function
`String → Option PyDateTime`, which the bucketing theorems quantify over.
-/

/-! ## Calendar layer: CPython `datetime` internals -/

/-- CPython `_DAYS_BEFORE_MONTH`: days before the first of each month in a
non-leap year (index 1..12). -/
def dbmTable (m : ℕ) : ℕ :=
  match m with
  | 1 => 0 | 2 => 31 | 3 => 59 | 4 => 90 | 5 => 120 | 6 => 151
  | 7 => 181 | 8 => 212 | 9 => 243 | 10 => 273 | 11 => 304 | 12 => 334
  | _ => 0

/-- CPython `_DAYS_IN_MONTH`: month lengths in a non-leap year. -/
def dimTable (m : ℕ) : ℕ :=
  match m with
  | 2 => 28 | 4 => 30 | 6 => 30 | 9 => 30 | 11 => 30 | _ => 31

/-- CPython `_is_leap`. -/
def is_leap (year : ℕ) : Bool := year % 4 == 0 && (year % 100 != 0 || year % 400 == 0)

/-- CPython `_days_before_year`. -/
def days_before_year (year : ℕ) : ℕ :=
  (year - 1) * 365 + (year - 1) / 4 - (year - 1) / 100 + (year - 1) / 400

/-- CPython `_days_before_month`. -/
def days_before_month (year month : ℕ) : ℕ :=
  dbmTable month + (if 2 < month ∧ is_leap year then 1 else 0)

/-- CPython `_days_in_month`. -/
def days_in_month (year month : ℕ) : ℕ :=
  dimTable month + (if month = 2 ∧ is_leap year then 1 else 0)

/-- CPython `_ymd2ord`: proleptic-Gregorian ordinal of a civil date,
with `0001-01-01` mapped to ordinal 1 (`date.toordinal`). -/
def ymd2ord (y m d : ℕ) : ℕ := days_before_year y + days_before_month y m + d

/-- The month-estimation step of CPython `_ord2ymd`: from the leap flag and
the 0-based day of the year, compute the month together with the number of
days preceding that month (`month = (n + 50) >> 5`, then one downward
correction when the estimate overshoots). -/
def find_month_day (leap : Bool) (n0 : ℕ) : ℕ × ℕ :=
  let month := (n0 + 50) / 32
  let preceding := dbmTable month + (if 2 < month ∧ leap then 1 else 0)
  if n0 < preceding then
    (month - 1, preceding - (dimTable (month - 1) + (if month - 1 = 2 ∧ leap then 1 else 0)))
  else (month, preceding)

/-- CPython `_ord2ymd`: civil date of a proleptic-Gregorian ordinal,
via the 400/100/4/1-year `divmod` cascade. -/
def ord2ymd (n : ℕ) : ℕ × ℕ × ℕ :=
  let n' := n - 1
  let n400 := n' / 146097
  let r3 := n' % 146097
  let n100 := r3 / 36524
  let r2 := r3 % 36524
  let n4 := r2 / 1461
  let r1 := r2 % 1461
  let n1 := r1 / 365
  let n0 := r1 % 365
  let year := n400 * 400 + n100 * 100 + n4 * 4 + n1 + 1
  if n1 = 4 ∨ n100 = 4 then
    (year - 1, 12, 31)
  else
    let leap : Bool := n1 == 3 && (n4 != 24 || n100 == 3)
    let mp := find_month_day leap n0
    (year, mp.1, n0 - mp.2 + 1)

theorem is_leap_iff (y : ℕ) : is_leap y = true ↔ (y % 4 = 0 ∧ (y % 100 ≠ 0 ∨ y % 400 = 0)) := by
  simp [is_leap]

set_option maxHeartbeats 1000000 in
theorem find_month_day_spec (b : Bool) (r0 M P : ℕ) (hr : r0 < 365)
    (h : find_month_day b r0 = (M, P)) :
    1 ≤ M ∧ M ≤ 12 ∧ P = dbmTable M + (if 2 < M ∧ b = true then 1 else 0) ∧ P ≤ r0 ∧
    r0 < P + dimTable M + (if M = 2 ∧ b = true then 1 else 0) := by
  simp only [find_month_day] at h
  obtain ⟨mo, hmo⟩ : ∃ mo, (r0 + 50)/32 = mo := ⟨_, rfl⟩
  rw [hmo] at h
  have hm1 : 1 ≤ mo := by omega
  have hm2 : mo ≤ 12 := by omega
  cases b <;> interval_cases mo <;>
    · simp only [dbmTable, dimTable, eq_self_iff_true, and_true, and_false,
        Bool.false_eq_true, if_false, Prod.mk.injEq] at h <;>
      split_ifs at h <;>
      · obtain ⟨rfl, rfl⟩ := h
        refine ⟨by omega, by omega, ?_, by omega, ?_⟩ <;>
          (simp only [dbmTable, dimTable, eq_self_iff_true, and_true, and_false,
              Bool.false_eq_true, if_false]
           try split_ifs) <;> omega

set_option maxHeartbeats 1000000 in
/-- `_ord2ymd` inverts `_ymd2ord` and produces a valid civil date. -/
theorem ord2ymd_spec (n y m d : ℕ) (h1 : 1 ≤ n) (h : ord2ymd n = (y, m, d)) :
    ymd2ord y m d = n ∧ 1 ≤ m ∧ m ≤ 12 ∧ 1 ≤ d ∧ d ≤ days_in_month y m ∧ 1 ≤ y := by
  simp only [ord2ymd] at h
  obtain ⟨q3, r3, e3, b3, hq3, hr3⟩ :
      ∃ q r, n - 1 = q * 146097 + r ∧ r < 146097 ∧ (n-1)/146097 = q ∧ (n-1)%146097 = r :=
    ⟨_, _, by omega, Nat.mod_lt _ (by norm_num), rfl, rfl⟩
  rw [hq3, hr3] at h
  obtain ⟨q2, r2, e2, b2, hq2, hr2⟩ :
      ∃ q r, r3 = q * 36524 + r ∧ r < 36524 ∧ r3/36524 = q ∧ r3%36524 = r :=
    ⟨_, _, by omega, Nat.mod_lt _ (by norm_num), rfl, rfl⟩
  rw [hq2, hr2] at h
  obtain ⟨q1, r1, e1, b1, hq1, hr1⟩ :
      ∃ q r, r2 = q * 1461 + r ∧ r < 1461 ∧ r2/1461 = q ∧ r2%1461 = r :=
    ⟨_, _, by omega, Nat.mod_lt _ (by norm_num), rfl, rfl⟩
  rw [hq1, hr1] at h
  obtain ⟨q0, r0, e0, b0, hq0, hr0⟩ :
      ∃ q r, r1 = q * 365 + r ∧ r < 365 ∧ r1/365 = q ∧ r1%365 = r :=
    ⟨_, _, by omega, Nat.mod_lt _ (by norm_num), rfl, rfl⟩
  rw [hq0, hr0] at h
  have hq2b : q2 ≤ 4 := by omega
  have hq1b : q1 ≤ 24 := by omega
  have hq0b : q0 ≤ 4 := by omega
  by_cases hA : q0 = 4 ∨ q2 = 4
  · rw [if_pos hA] at h
    simp only [Prod.mk.injEq] at h
    obtain ⟨rfl, rfl, rfl⟩ := h
    have hY : is_leap (q3 * 400 + q2 * 100 + q1 * 4 + q0 + 1 - 1) = true := by
      rw [is_leap_iff]; omega
    have hcase : (q0 = 4 ∧ q2 ≤ 3 ∧ q1 ≤ 23 ∧ r0 = 0) ∨ (q2 = 4 ∧ q1 = 0 ∧ q0 = 0 ∧ r1 = 0) := by
      omega
    rcases hcase with ⟨h4, hc2, hc1, hc0⟩ | ⟨h4, hc1, hc0, hcr⟩
    · have d4 : (q3 * 400 + q2 * 100 + q1 * 4 + q0 + 1 - 1 - 1) / 4
          = q3 * 100 + q2 * 25 + q1 := by omega
      have d100 : (q3 * 400 + q2 * 100 + q1 * 4 + q0 + 1 - 1 - 1) / 100 = q3 * 4 + q2 := by
        omega
      have d400 : (q3 * 400 + q2 * 100 + q1 * 4 + q0 + 1 - 1 - 1) / 400 = q3 := by omega
      refine ⟨?_, by norm_num, by norm_num, by norm_num, ?_, by omega⟩
      · simp only [ymd2ord, days_before_year, days_before_month, dbmTable, hY,
          eq_self_iff_true, and_true]
        split_ifs <;> omega
      · simp only [days_in_month, dimTable, hY, eq_self_iff_true, and_true]
        split_ifs <;> omega
    · have d4 : (q3 * 400 + q2 * 100 + q1 * 4 + q0 + 1 - 1 - 1) / 4
          = q3 * 100 + 99 := by omega
      have d100 : (q3 * 400 + q2 * 100 + q1 * 4 + q0 + 1 - 1 - 1) / 100 = q3 * 4 + 3 := by
        omega
      have d400 : (q3 * 400 + q2 * 100 + q1 * 4 + q0 + 1 - 1 - 1) / 400 = q3 := by omega
      refine ⟨?_, by norm_num, by norm_num, by norm_num, ?_, by omega⟩
      · simp only [ymd2ord, days_before_year, days_before_month, dbmTable, hY,
          eq_self_iff_true, and_true]
        split_ifs <;> omega
      · simp only [days_in_month, dimTable, hY, eq_self_iff_true, and_true]
        split_ifs <;> omega
  · rw [if_neg hA] at h
    obtain ⟨M, P, hMP⟩ :
        ∃ M P, find_month_day (q0 == 3 && (q1 != 24 || q2 == 3)) r0 = (M, P) := ⟨_, _, rfl⟩
    obtain ⟨hsM1, hsM2, hsP, hsPle, hsdim⟩ := find_month_day_spec _ _ _ _ b0 hMP
    rw [hMP] at h
    simp only [Prod.mk.injEq] at h
    obtain ⟨rfl, rfl, rfl⟩ := h
    have d4 : (q3 * 400 + q2 * 100 + q1 * 4 + q0 + 1 - 1) / 4
      = q3 * 100 + q2 * 25 + q1 := by omega
    have d100 : (q3 * 400 + q2 * 100 + q1 * 4 + q0 + 1 - 1) / 100 = q3 * 4 + q2 := by omega
    have d400 : (q3 * 400 + q2 * 100 + q1 * 4 + q0 + 1 - 1) / 400 = q3 := by omega
    have hY : is_leap (q3 * 400 + q2 * 100 + q1 * 4 + q0 + 1)
        = (q0 == 3 && (q1 != 24 || q2 == 3)) := by
      cases hLb : (q0 == 3 && (q1 != 24 || q2 == 3)) with
      | false =>
        have hLp : ¬ (q0 = 3 ∧ (q1 ≠ 24 ∨ q2 = 3)) := by
          intro ⟨ha, hb⟩
          simp [ha] at hLb
          omega
        rw [← Bool.not_eq_true, is_leap_iff]
        omega
      | true =>
        have hLp : q0 = 3 ∧ (q1 ≠ 24 ∨ q2 = 3) := by
          simp at hLb
          omega
        rw [is_leap_iff]
        omega
    refine ⟨?_, by omega, by omega, by omega, ?_, by omega⟩
    · simp only [ymd2ord, days_before_year, days_before_month, hY, ← hsP]
      omega
    · simp only [days_in_month, hY]
      omega

example : ymd2ord 1 1 1 = 1 := by decide
example : ord2ymd 1 = (1, 1, 1) := by decide
example : ord2ymd (ymd2ord 2024 1 7) = (2024, 1, 7) := by decide
example : ord2ymd (ymd2ord 2024 2 29) = (2024, 2, 29) := by decide
example : ord2ymd (ymd2ord 1900 3 1) = (1900, 3, 1) := by decide
example : ord2ymd (ymd2ord 999 12 31) = (999, 12, 31) := by decide

/-! ## Derived calendar facts -/

theorem days_before_year_succ (y : ℕ) (hy : 1 ≤ y) :
    days_before_year (y + 1) = days_before_year y + 365 + (if is_leap y then 1 else 0) := by
  obtain ⟨z, rfl⟩ : ∃ z, y = z + 1 := ⟨y - 1, by omega⟩
  simp only [days_before_year, Nat.add_sub_cancel]
  rcases Bool.eq_false_or_eq_true (is_leap (z + 1)) with hL | hL
  · have hLp : (z+1) % 4 = 0 ∧ ((z+1) % 100 ≠ 0 ∨ (z+1) % 400 = 0) := (is_leap_iff (z+1)).mp hL
    simp only [hL, if_true]
    obtain ⟨h4, hrest⟩ := hLp
    have e4 : (z+1) / 4 = z/4 + 1 := by omega
    by_cases h100 : (z+1) % 100 = 0
    · have h400 : (z+1) % 400 = 0 := by
        rcases hrest with hc | hc
        · exact absurd h100 hc
        · exact hc
      have e100 : (z+1) / 100 = z/100 + 1 := by omega
      have e400 : (z+1) / 400 = z/400 + 1 := by omega
      omega
    · have h400 : (z+1) % 400 ≠ 0 := by omega
      have e100 : (z+1) / 100 = z/100 := by omega
      have e400 : (z+1) / 400 = z/400 := by omega
      omega
  · have hLp : ¬ ((z+1) % 4 = 0 ∧ ((z+1) % 100 ≠ 0 ∨ (z+1) % 400 = 0)) := by
      rw [← is_leap_iff, hL]
      simp
    simp only [hL, Bool.false_eq_true, if_false]
    push_neg at hLp
    by_cases h4 : (z+1) % 4 = 0
    · obtain ⟨h100, h400⟩ := hLp h4
      have e4 : (z+1) / 4 = z/4 + 1 := by omega
      have e100 : (z+1) / 100 = z/100 + 1 := by omega
      have e400 : (z+1) / 400 = z/400 := by omega
      omega
    · have e4 : (z+1) / 4 = z/4 := by omega
      have e100 : (z+1) / 100 = z/100 := by omega
      have e400 : (z+1) / 400 = z/400 := by omega
      omega

theorem days_before_year_mono {y y' : ℕ} (h : y ≤ y') :
    days_before_year y ≤ days_before_year y' := by
  induction y' with
  | zero =>
    have hz : y = 0 := by omega
    subst hz
    exact le_refl _
  | succ k ih =>
    rcases Nat.lt_or_ge y (k + 1) with hk | hk
    · have h1 : days_before_year y ≤ days_before_year k := ih (by omega)
      rcases Nat.eq_zero_or_pos k with rfl | hkpos
      · have : days_before_year 1 = 0 := by simp [days_before_year]
        have : days_before_year 0 = 0 := by simp [days_before_year]
        omega
      · have h2 := days_before_year_succ k hkpos
        have : (0:ℕ) ≤ if is_leap k then 1 else 0 := Nat.zero_le _
        omega
    · have : y = k + 1 := by omega
      subst this
      exact le_refl _

theorem doy_bounds (y m d : ℕ) (hm1 : 1 ≤ m) (hm2 : m ≤ 12) (hd1 : 1 ≤ d)
    (hd2 : d ≤ days_in_month y m) :
    1 ≤ days_before_month y m + d ∧
    days_before_month y m + d ≤ 365 + (if is_leap y then 1 else 0) := by
  cases hL : is_leap y <;>
    · interval_cases m <;>
        · simp only [days_before_month, days_in_month, dbmTable, dimTable, hL,
            Bool.false_eq_true, and_false, and_true, if_false, eq_self_iff_true,
            if_true, true_and] at hd2 ⊢
          (try split_ifs at hd2 ⊢) <;> omega

theorem dbm_add_dim_le (y m m' : ℕ) (hm1 : 1 ≤ m) (hmm : m < m') (hm2 : m' ≤ 12) :
    days_before_month y m + days_in_month y m ≤ days_before_month y m' := by
  have hm2' : m ≤ 12 := by omega
  have hm1' : 1 ≤ m' := by omega
  cases hL : is_leap y <;>
    · interval_cases m <;> interval_cases m' <;>
        · simp only [days_before_month, days_in_month, dbmTable, dimTable, hL,
            Bool.false_eq_true, and_false, and_true, if_false, eq_self_iff_true,
            if_true, true_and]
          (try split_ifs) <;> omega

theorem dbm_one (y : ℕ) : days_before_month y 1 = 0 := by
  norm_num [days_before_month, dbmTable]

theorem doy_pos (y m d : ℕ) (hd1 : 1 ≤ d) : 1 ≤ days_before_month y m + d := by
  simp only [days_before_month]
  omega

theorem ymd2ord_lt_ymd2ord (y m d y' m' d' : ℕ)
    (hy : 1 ≤ y) (hm1 : 1 ≤ m) (hm2 : m ≤ 12) (hd1 : 1 ≤ d) (hd2 : d ≤ days_in_month y m)
    (hm1' : 1 ≤ m') (hm2' : m' ≤ 12) (hd1' : 1 ≤ d')
    (hlex : y < y' ∨ (y = y' ∧ (m < m' ∨ (m = m' ∧ d < d')))) :
    ymd2ord y m d < ymd2ord y' m' d' := by
  rcases hlex with hyy | ⟨rfl, hrest⟩
  · have h1 : days_before_month y m + d ≤ 365 + (if is_leap y then 1 else 0) :=
      (doy_bounds y m d hm1 hm2 hd1 hd2).2
    have h2 : days_before_year (y + 1) = days_before_year y + 365 + (if is_leap y then 1 else 0) :=
      days_before_year_succ y hy
    have h3 : days_before_year (y + 1) ≤ days_before_year y' := days_before_year_mono hyy
    have h4 : 1 ≤ days_before_month y' m' + d' := doy_pos y' m' d' hd1'
    obtain ⟨L, hL1, hLe⟩ : ∃ L, L ≤ 1 ∧ (if is_leap y then 1 else 0) = L :=
      ⟨_, by split_ifs <;> omega, rfl⟩
    rw [hLe] at h1 h2
    simp only [ymd2ord]
    omega
  · rcases hrest with hmm | ⟨rfl, hdd⟩
    · have h1 : days_before_month y m + days_in_month y m ≤ days_before_month y m' :=
        dbm_add_dim_le y m m' hm1 hmm hm2'
      simp only [ymd2ord]
      omega
    · simp only [ymd2ord]
      omega

/-- Componentwise (lexicographic) monotonicity of `_ord2ymd`. -/
theorem ord2ymd_lex_mono (n n' y m d y' m' d' : ℕ) (h1 : 1 ≤ n) (hle : n ≤ n')
    (h : ord2ymd n = (y, m, d)) (h' : ord2ymd n' = (y', m', d')) :
    y < y' ∨ (y = y' ∧ (m < m' ∨ (m = m' ∧ d ≤ d'))) := by
  obtain ⟨he, hm1, hm2, hd1, hd2, hy⟩ := ord2ymd_spec n y m d h1 h
  obtain ⟨he', hm1', hm2', hd1', hd2', hy'⟩ := ord2ymd_spec n' y' m' d' (by omega) h'
  by_contra hc
  push_neg at hc
  have hlt : ymd2ord y' m' d' < ymd2ord y m d := by
    rcases Nat.lt_trichotomy y y' with h2 | h2 | h2
    · omega
    · subst h2
      rcases Nat.lt_trichotomy m m' with h3 | h3 | h3
      · have := (hc.2 rfl).1
        omega
      · subst h3
        exact ymd2ord_lt_ymd2ord y m d' y m d hy' hm1' hm2' hd1' hd2' hm1 hm2 hd1
          (Or.inr ⟨rfl, Or.inr ⟨rfl, by have := (hc.2 rfl).2 rfl; omega⟩⟩)
      · exact ymd2ord_lt_ymd2ord y m' d' y m d hy' hm1' hm2' hd1' hd2' hm1 hm2 hd1
          (Or.inr ⟨rfl, Or.inl h3⟩)
    · exact ymd2ord_lt_ymd2ord y' m' d' y m d hy' hm1' hm2' hd1' hd2' hm1 hm2 hd1 (Or.inl h2)
  omega

/-- The ordinal `n` lies between January 1 of its own year and January 1 of
the following year. -/
theorem ord_year_bounds (n y m d : ℕ) (h1 : 1 ≤ n) (h : ord2ymd n = (y, m, d)) :
    ymd2ord y 1 1 ≤ n ∧ n < ymd2ord (y + 1) 1 1 ∧ 1 ≤ y := by
  obtain ⟨he, hm1, hm2, hd1, hd2, hy⟩ := ord2ymd_spec n y m d h1 h
  obtain ⟨hb1, hb2⟩ := doy_bounds y m d hm1 hm2 hd1 hd2
  have hs : days_before_year (y + 1) = days_before_year y + 365 + (if is_leap y then 1 else 0) :=
    days_before_year_succ y hy
  have e1 : ymd2ord y 1 1 = days_before_year y + 1 := by
    rw [ymd2ord, dbm_one]
  have e2 : ymd2ord (y + 1) 1 1 = days_before_year (y + 1) + 1 := by
    rw [ymd2ord, dbm_one]
  obtain ⟨L, hL1, hLe⟩ : ∃ L, L ≤ 1 ∧ (if is_leap y then 1 else 0) = L :=
    ⟨_, by split_ifs <;> omega, rfl⟩
  rw [hLe] at hb2 hs
  simp only [ymd2ord] at he
  omega

/-! ## Week boundaries and strftime fields -/

/-- `DataProcessor.get_week_boundaries`, at the level of ordinals: Python
`date.weekday()` is `(ordinal + 6) % 7` (Monday = 0), `days_to_sunday =
(weekday + 1) % 7`, and `week_start = date - timedelta(days=days_to_sunday)`
with the time of day zeroed.  Only the ordinal of the week start feeds the
`%Y-W%U` key. -/
def week_start (n : ℕ) : ℕ := n - ((n + 6) % 7 + 1) % 7

theorem week_start_eq (n : ℕ) : week_start n = n - n % 7 := by
  simp only [week_start]
  omega

/-- C `tm_yday` (0-based day of year), as Python's `timetuple` passes it to
the C `strftime`. -/
def tm_yday (n : ℕ) : ℕ := n - ymd2ord (ord2ymd n).1 1 1

/-- C `tm_wday`, Sunday = 0 (ordinal 1, `0001-01-01`, was a Monday). -/
def tm_wday (n : ℕ) : ℕ := n % 7

/-- glibc `strftime` `%U`: `(tm_yday + 7 - tm_wday) / 7`, the week number of
the year with Sunday as the first day of the week. -/
def strftime_U (n : ℕ) : ℕ := (tm_yday n + 7 - tm_wday n) / 7

theorem tm_yday_le (n : ℕ) (h1 : 1 ≤ n) : tm_yday n ≤ 365 := by
  obtain ⟨y, m, d, h⟩ : ∃ y m d, ord2ymd n = (y, m, d) := ⟨_, _, _, rfl⟩
  obtain ⟨hb1, hb2, hy⟩ := ord_year_bounds n y m d h1 h
  have hs : days_before_year (y + 1) = days_before_year y + 365 + (if is_leap y then 1 else 0) :=
    days_before_year_succ y hy
  have e1 : ymd2ord y 1 1 = days_before_year y + 1 := by rw [ymd2ord, dbm_one]
  have e2 : ymd2ord (y + 1) 1 1 = days_before_year (y + 1) + 1 := by rw [ymd2ord, dbm_one]
  obtain ⟨L, hL1, hLe⟩ : ∃ L, L ≤ 1 ∧ (if is_leap y then 1 else 0) = L :=
    ⟨_, by split_ifs <;> omega, rfl⟩
  rw [hLe] at hs
  simp only [tm_yday, h]
  omega

theorem strftime_U_le (n : ℕ) (h1 : 1 ≤ n) : strftime_U n ≤ 53 := by
  have := tm_yday_le n h1
  simp only [strftime_U, tm_wday]
  omega

/-! ## Decimal rendering used by strftime format fields -/

/-- The ASCII digit character for a value below ten. -/
def digitChar (k : ℕ) : Char := Char.ofNat (48 + k)

/-- Decimal digits, fuelled so that the recursion is structural (the fuel
only needs to dominate the number of digits). -/
def natDigitsF : ℕ → ℕ → List ℕ
  | 0, k => [k]
  | fuel + 1, k => if k < 10 then [k] else natDigitsF fuel (k / 10) ++ [k % 10]

/-- Decimal digits of a number, most significant first (the digits `str(n)`
prints). -/
def natDigits (k : ℕ) : List ℕ := natDigitsF k k

theorem natDigitsF_congr : ∀ fuel fuel' k, k ≤ fuel → k ≤ fuel' →
    natDigitsF fuel k = natDigitsF fuel' k := by
  intro fuel
  induction fuel with
  | zero =>
    intro fuel' k h h'
    have hk : k = 0 := by omega
    subst hk
    cases fuel' with
    | zero => rfl
    | succ f' => simp [natDigitsF]
  | succ f ih =>
    intro fuel' k h h'
    cases fuel' with
    | zero =>
      have hk : k = 0 := by omega
      subst hk
      simp [natDigitsF]
    | succ f' =>
      simp only [natDigitsF]
      by_cases h10 : k < 10
      · rw [if_pos h10, if_pos h10]
      · rw [if_neg h10, if_neg h10]
        have hlt : k / 10 < k := Nat.div_lt_self (by omega) (by norm_num)
        rw [ih f' (k / 10) (by omega) (by omega)]

/-- The recurrence satisfied by `natDigits`. -/
theorem natDigits_eq (k : ℕ) :
    natDigits k = if k < 10 then [k] else natDigits (k / 10) ++ [k % 10] := by
  rcases Nat.eq_zero_or_pos k with rfl | hk
  · simp [natDigits, natDigitsF]
  · obtain ⟨f, rfl⟩ : ∃ f, k = f + 1 := ⟨k - 1, by omega⟩
    simp only [natDigits, natDigitsF]
    by_cases h10 : f + 1 < 10
    · rw [if_pos h10, if_pos h10]
    · rw [if_neg h10, if_neg h10]
      have hlt : (f + 1) / 10 < f + 1 := Nat.div_lt_self (by omega) (by norm_num)
      rw [natDigitsF_congr f ((f + 1) / 10) ((f + 1) / 10) (by omega) (le_refl _)]

/-- The number denoted by a digit sequence (most significant first). -/
def digitsVal (l : List ℕ) : ℕ := l.foldl (fun a x => 10 * a + x) 0

/-- A two-digit zero-padded field (`%m`, `%d`, `%H`, `%U`), as digit values. -/
def pad2 (k : ℕ) : List ℕ := if k < 10 then [0, k] else natDigits k

theorem digitsVal_aux (l : List ℕ) (a : ℕ) :
    l.foldl (fun a x => 10 * a + x) a = a * 10 ^ l.length + digitsVal l := by
  induction l generalizing a with
  | nil => simp [digitsVal]
  | cons x t ih =>
    simp only [List.foldl_cons, List.length_cons, digitsVal]
    rw [ih (10 * a + x), ih (10 * 0 + x)]
    ring

theorem digitsVal_cons (x : ℕ) (t : List ℕ) :
    digitsVal (x :: t) = x * 10 ^ t.length + digitsVal t := by
  have := digitsVal_aux t x
  simp only [digitsVal, List.foldl_cons]
  rw [show (10 * 0 + x) = x from by omega] at *
  exact this

theorem digitsVal_lt (l : List ℕ) (h : ∀ x ∈ l, x < 10) : digitsVal l < 10 ^ l.length := by
  induction l with
  | nil => simp [digitsVal]
  | cons x t ih =>
    have hx : x < 10 := h x (List.mem_cons_self x t)
    have ht : digitsVal t < 10 ^ t.length := ih (fun z hz => h z (List.mem_cons_of_mem x hz))
    rw [digitsVal_cons, List.length_cons, pow_succ]
    calc x * 10 ^ t.length + digitsVal t < x * 10 ^ t.length + 10 ^ t.length := by omega
      _ = (x + 1) * 10 ^ t.length := by ring
      _ ≤ 10 * 10 ^ t.length := Nat.mul_le_mul_right _ (by omega)
      _ = 10 ^ t.length * 10 := by ring

theorem natDigits_all_lt (k : ℕ) : ∀ x ∈ natDigits k, x < 10 := by
  induction k using Nat.strong_induction_on with
  | _ k ih =>
    rw [natDigits_eq]
    split_ifs with h
    · intro x hx
      simp only [List.mem_singleton] at hx
      omega
    · intro x hx
      simp only [List.mem_append, List.mem_singleton] at hx
      rcases hx with hx | hx
      · exact ih (k / 10) (Nat.div_lt_self (by omega) (by norm_num)) x hx
      · omega

theorem digitsVal_append_single (l : List ℕ) (x : ℕ) :
    digitsVal (l ++ [x]) = 10 * digitsVal l + x := by
  simp only [digitsVal, List.foldl_append, List.foldl_cons, List.foldl_nil]

theorem digitsVal_natDigits (k : ℕ) : digitsVal (natDigits k) = k := by
  induction k using Nat.strong_induction_on with
  | _ k ih =>
    rw [natDigits_eq]
    split_ifs with h
    · simp [digitsVal]
    · rw [digitsVal_append_single, ih (k / 10) (Nat.div_lt_self (by omega) (by norm_num))]
      omega

theorem natDigits_ne_nil (k : ℕ) : natDigits k ≠ [] := by
  rw [natDigits_eq]
  split_ifs <;> simp

theorem natDigits_len_le (j : ℕ) : ∀ k, k < 10 ^ (j + 1) → (natDigits k).length ≤ j + 1 := by
  induction j with
  | zero =>
    intro k hk
    norm_num at hk
    rw [natDigits_eq, if_pos hk]
    simp
  | succ j ih =>
    intro k hk
    rw [natDigits_eq]
    split_ifs with h
    · simp
    · have hd : k / 10 < 10 ^ (j + 1) := by
        have hp : (10:ℕ) ^ (j + 1 + 1) = 10 * 10 ^ (j + 1) := by ring
        rw [hp] at hk
        omega
      have := ih (k / 10) hd
      simp only [List.length_append, List.length_singleton]
      omega

theorem natDigits_len_ge (j : ℕ) : ∀ k, 10 ^ j ≤ k → j + 1 ≤ (natDigits k).length := by
  induction j with
  | zero =>
    intro k hk
    have := natDigits_ne_nil k
    cases hnd : natDigits k with
    | nil => exact absurd hnd this
    | cons a t => simp
  | succ j ih =>
    intro k hk
    have hk10 : 10 ≤ k := by
      have h1 : (10:ℕ) ≤ 10 ^ (j + 1) := by
        calc (10:ℕ) = 10 ^ 1 := by norm_num
          _ ≤ 10 ^ (j + 1) := Nat.pow_le_pow_right (by norm_num) (by omega)
      omega
    rw [natDigits_eq, if_neg (by omega)]
    have hd : 10 ^ j ≤ k / 10 := by
      have hp : (10:ℕ) ^ (j + 1) = 10 * 10 ^ j := by ring
      rw [hp] at hk
      omega
    have := ih (k / 10) hd
    simp only [List.length_append, List.length_singleton]
    omega

theorem natDigits_len4 (k : ℕ) (h1 : 1000 ≤ k) (h2 : k ≤ 9999) : (natDigits k).length = 4 := by
  have ha := natDigits_len_le 3 k (by norm_num; omega)
  have hb := natDigits_len_ge 3 k (by norm_num; omega)
  omega

theorem pad2_len (k : ℕ) (h : k < 100) : (pad2 k).length = 2 := by
  rw [pad2]
  split_ifs with h10
  · simp
  · have ha := natDigits_len_le 1 k (by norm_num; omega)
    have hb := natDigits_len_ge 1 k (by norm_num; omega)
    omega

theorem pad2_val (k : ℕ) : digitsVal (pad2 k) = k := by
  rw [pad2]
  split_ifs with h10
  · simp [digitsVal]
  · exact digitsVal_natDigits k

theorem pad2_all_lt (k : ℕ) (h : k < 100) : ∀ x ∈ pad2 k, x < 10 := by
  rw [pad2]
  split_ifs with h10
  · intro x hx
    simp only [List.mem_cons, List.mem_singleton] at hx
    rcases hx with rfl | hx
    · omega
    · simp at hx
      omega
  · exact natDigits_all_lt k

/-! ## Lexicographic comparison of rendered decimal fields -/

theorem digitChar_lt_digitChar : ∀ a, a < 10 → ∀ b, b < 10 → a < b →
    digitChar a < digitChar b := by decide

theorem digitChar_inj : ∀ a, a < 10 → ∀ b, b < 10 → digitChar a = digitChar b → a = b := by
  decide

theorem digitsVal_cons_lt_of_head_lt (a b : ℕ) (t1 t2 : List ℕ) (hlen : t1.length = t2.length)
    (hab : a < b) (hv1 : digitsVal t1 < 10 ^ t1.length) :
    digitsVal (a :: t1) < digitsVal (b :: t2) := by
  rw [digitsVal_cons, digitsVal_cons, hlen] at *
  calc a * 10 ^ t2.length + digitsVal t1 < a * 10 ^ t2.length + 10 ^ t2.length := by omega
    _ = (a + 1) * 10 ^ t2.length := by ring
    _ ≤ b * 10 ^ t2.length := Nat.mul_le_mul_right _ (by omega)
    _ ≤ b * 10 ^ t2.length + digitsVal t2 := Nat.le_add_right _ _

theorem lex_of_digitsVal_lt (l1 : List ℕ) :
    ∀ (l2 : List ℕ) (r1 r2 : List Char), l1.length = l2.length →
    (∀ x ∈ l1, x < 10) → (∀ x ∈ l2, x < 10) → digitsVal l1 < digitsVal l2 →
    List.Lex (· < ·) (l1.map digitChar ++ r1) (l2.map digitChar ++ r2) := by
  induction l1 with
  | nil =>
    intro l2 r1 r2 hlen _ _ hv
    have h0 : l2 = [] := List.length_eq_zero.mp hlen.symm
    subst h0
    simp [digitsVal] at hv
  | cons a t1 ih =>
    intro l2 r1 r2 hlen h1 h2 hv
    cases l2 with
    | nil => simp at hlen
    | cons b t2 =>
      have hlen' : t1.length = t2.length := by simpa using hlen
      have ha : a < 10 := h1 a (List.mem_cons_self a t1)
      have hb : b < 10 := h2 b (List.mem_cons_self b t2)
      have ht1 : ∀ x ∈ t1, x < 10 := fun x hx => h1 x (List.mem_cons_of_mem _ hx)
      have ht2 : ∀ x ∈ t2, x < 10 := fun x hx => h2 x (List.mem_cons_of_mem _ hx)
      have hv1 : digitsVal t1 < 10 ^ t1.length := digitsVal_lt t1 ht1
      have hv2 : digitsVal t2 < 10 ^ t2.length := digitsVal_lt t2 ht2
      have hab : a ≤ b := by
        by_contra hab
        push_neg at hab
        have := digitsVal_cons_lt_of_head_lt b a t2 t1 hlen'.symm hab hv2
        omega
      rcases Nat.lt_or_ge a b with hlt | hge
      · simp only [List.map_cons, List.cons_append]
        exact List.Lex.rel (digitChar_lt_digitChar a ha b hb hlt)
      · have hEq : a = b := by omega
        subst hEq
        simp only [List.map_cons, List.cons_append]
        refine List.Lex.cons (ih t2 r1 r2 hlen' ht1 ht2 ?_)
        rw [digitsVal_cons, digitsVal_cons, hlen'] at hv
        omega

theorem digits_eq_of_val_eq (l1 : List ℕ) :
    ∀ l2 : List ℕ, l1.length = l2.length →
    (∀ x ∈ l1, x < 10) → (∀ x ∈ l2, x < 10) → digitsVal l1 = digitsVal l2 → l1 = l2 := by
  induction l1 with
  | nil =>
    intro l2 hlen _ _ _
    exact (List.length_eq_zero.mp hlen.symm).symm
  | cons a t1 ih =>
    intro l2 hlen h1 h2 hv
    cases l2 with
    | nil => simp at hlen
    | cons b t2 =>
      have hlen' : t1.length = t2.length := by simpa using hlen
      have ht1 : ∀ x ∈ t1, x < 10 := fun x hx => h1 x (List.mem_cons_of_mem _ hx)
      have ht2 : ∀ x ∈ t2, x < 10 := fun x hx => h2 x (List.mem_cons_of_mem _ hx)
      have hv1 : digitsVal t1 < 10 ^ t1.length := digitsVal_lt t1 ht1
      have hv2 : digitsVal t2 < 10 ^ t2.length := digitsVal_lt t2 ht2
      have hEq : a = b := by
        by_contra hne
        rcases Nat.lt_or_ge a b with hlt | hge
        · have := digitsVal_cons_lt_of_head_lt a b t1 t2 hlen' hlt hv1
          omega
        · have hba : b < a := by omega
          have := digitsVal_cons_lt_of_head_lt b a t2 t1 hlen'.symm hba hv2
          omega
      subst hEq
      have hvt : digitsVal t1 = digitsVal t2 := by
        rw [digitsVal_cons, digitsVal_cons, hlen'] at hv
        omega
      rw [ih t2 hlen' ht1 ht2 hvt]

theorem map_digitChar_inj (l1 : List ℕ) :
    ∀ l2 : List ℕ, (∀ x ∈ l1, x < 10) → (∀ x ∈ l2, x < 10) →
    l1.map digitChar = l2.map digitChar → l1 = l2 := by
  induction l1 with
  | nil =>
    intro l2 _ _ h
    cases l2 with
    | nil => rfl
    | cons b t2 => simp at h
  | cons a t1 ih =>
    intro l2 h1 h2 h
    cases l2 with
    | nil => simp at h
    | cons b t2 =>
      simp only [List.map_cons, List.cons.injEq] at h
      have ha : a < 10 := h1 a (List.mem_cons_self a t1)
      have hb : b < 10 := h2 b (List.mem_cons_self b t2)
      have hEq : a = b := digitChar_inj a ha b hb h.1
      subst hEq
      rw [ih t2 (fun x hx => h1 x (List.mem_cons_of_mem _ hx))
        (fun x hx => h2 x (List.mem_cons_of_mem _ hx)) h.2]

/-! ## Bucket keys rendered by strftime -/

/-- The `%Y` field: year digits, no padding (glibc renders years below 1000
with fewer than four characters). -/
def year_field (y : ℕ) : List Char := (natDigits y).map digitChar

/-- A zero-padded two-character field (`%m`, `%d`, `%H`, `%U`). -/
def two_digit_field (k : ℕ) : List Char := (pad2 k).map digitChar

/-- `strftime('%Y-%m-%d')` of the date of ordinal `n`: the day-bucket key of
`group_clients_by_day`. -/
def day_key (n : ℕ) : String :=
  ⟨year_field (ord2ymd n).1 ++
    '-' :: (two_digit_field (ord2ymd n).2.1 ++ '-' :: two_digit_field (ord2ymd n).2.2)⟩

/-- `strftime('%Y-%m')`: the month-bucket key of `group_clients_by_month`. -/
def month_key (n : ℕ) : String :=
  ⟨year_field (ord2ymd n).1 ++ '-' :: two_digit_field (ord2ymd n).2.1⟩

/-- `week_start(n).strftime('%Y-W%U')`: the week-bucket key of
`group_clients_by_week` (via `get_week_boundaries`). -/
def week_key (n : ℕ) : String :=
  ⟨year_field (ord2ymd (week_start n)).1 ++
    '-' :: 'W' :: two_digit_field (strftime_U (week_start n))⟩

theorem year_field_len4 (y : ℕ) (h1 : 1000 ≤ y) (h2 : y ≤ 9999) : (year_field y).length = 4 := by
  simp [year_field, natDigits_len4 y h1 h2]

theorem lex_year_lt (y y' : ℕ) (hy1 : 1000 ≤ y) (hy2' : y' ≤ 9999) (hlt : y < y')
    (r1 r2 : List Char) :
    List.Lex (· < ·) (year_field y ++ r1) (year_field y' ++ r2) := by
  have hy2 : y ≤ 9999 := by omega
  have hy1' : 1000 ≤ y' := by omega
  refine lex_of_digitsVal_lt (natDigits y) (natDigits y') r1 r2 ?_
    (natDigits_all_lt y) (natDigits_all_lt y') ?_
  · rw [natDigits_len4 y hy1 hy2, natDigits_len4 y' hy1' hy2']
  · rw [digitsVal_natDigits, digitsVal_natDigits]
    exact hlt

theorem lex_pad2_lt (k k' : ℕ) (hk : k < 100) (hk' : k' < 100) (hlt : k < k')
    (r1 r2 : List Char) :
    List.Lex (· < ·) (two_digit_field k ++ r1) (two_digit_field k' ++ r2) := by
  refine lex_of_digitsVal_lt (pad2 k) (pad2 k') r1 r2 ?_
    (pad2_all_lt k hk) (pad2_all_lt k' hk') ?_
  · rw [pad2_len k hk, pad2_len k' hk']
  · rw [pad2_val, pad2_val]
    exact hlt

theorem two_digit_field_inj (k k' : ℕ) (hk : k < 100) (hk' : k' < 100)
    (h : two_digit_field k = two_digit_field k') : k = k' := by
  have := map_digitChar_inj (pad2 k) (pad2 k') (pad2_all_lt k hk) (pad2_all_lt k' hk') h
  have hv := congrArg digitsVal this
  rwa [pad2_val, pad2_val] at hv

theorem year_field_inj (y y' : ℕ) (h : year_field y = year_field y') : y = y' := by
  have := map_digitChar_inj (natDigits y) (natDigits y')
    (natDigits_all_lt y) (natDigits_all_lt y') h
  have hv := congrArg digitsVal this
  rwa [digitsVal_natDigits, digitsVal_natDigits] at hv

theorem string_le_of_lex {L1 L2 : List Char} (h : List.Lex (· < ·) L1 L2) :
    (⟨L1⟩ : String) ≤ ⟨L2⟩ := by
  apply le_of_lt
  rw [String.lt_iff_toList_lt]
  exact h

theorem dim_le_31 (y m : ℕ) : days_in_month y m ≤ 31 := by
  rw [days_in_month]
  have hdt : dimTable m ≤ 31 := by
    unfold dimTable
    split <;> norm_num
  split_ifs with h
  · rcases h with ⟨rfl, _⟩
    simp only [dimTable] at *
    omega
  · omega

theorem append_cons_eq (p : List Char) (c : Char) (X : List Char) :
    p ++ c :: X = (p ++ [c]) ++ X :=
  (List.append_assoc p [c] X).symm

theorem two_digit_field_len (k : ℕ) (h : k < 100) : (two_digit_field k).length = 2 := by
  simp [two_digit_field, pad2_len k h]

theorem day_key_le (n n' : ℕ) (h1 : 1 ≤ n) (hle : n ≤ n')
    (hy : 1000 ≤ (ord2ymd n).1) (hy' : (ord2ymd n').1 ≤ 9999) :
    day_key n ≤ day_key n' := by
  obtain ⟨y, m, d, h⟩ : ∃ y m d, ord2ymd n = (y, m, d) := ⟨_, _, _, rfl⟩
  obtain ⟨y', m', d', h'⟩ : ∃ y m d, ord2ymd n' = (y, m, d) := ⟨_, _, _, rfl⟩
  rw [h] at hy
  rw [h'] at hy'
  obtain ⟨he, hm1, hm2, hd1, hd2, hy0⟩ := ord2ymd_spec n y m d h1 h
  obtain ⟨he', hm1', hm2', hd1', hd2', hy0'⟩ := ord2ymd_spec n' y' m' d' (by omega) h'
  have hdg : d < 100 := by have := dim_le_31 y m; omega
  have hdg' : d' < 100 := by have := dim_le_31 y' m'; omega
  have lex := ord2ymd_lex_mono n n' y m d y' m' d' h1 hle h h'
  unfold day_key
  rw [h, h']
  show (⟨year_field y ++ '-' :: (two_digit_field m ++ '-' :: two_digit_field d)⟩ : String) ≤
    ⟨year_field y' ++ '-' :: (two_digit_field m' ++ '-' :: two_digit_field d')⟩
  rcases lex with hY | ⟨rfl, hM⟩
  · exact string_le_of_lex (lex_year_lt y y' hy hy' hY _ _)
  · rcases hM with hMlt | ⟨rfl, hD⟩
    · apply string_le_of_lex
      rw [append_cons_eq (year_field y) '-' (two_digit_field m ++ '-' :: two_digit_field d),
        append_cons_eq (year_field y) '-' (two_digit_field m' ++ '-' :: two_digit_field d')]
      exact List.Lex.append_left _ (lex_pad2_lt m m' (by omega) (by omega) hMlt _ _) _
    · rcases Nat.lt_or_ge d d' with hDlt | hDge
      · apply string_le_of_lex
        have e : ∀ X : List Char, year_field y ++ '-' :: (two_digit_field m ++ '-' :: X)
            = (year_field y ++ '-' :: (two_digit_field m ++ ['-'])) ++ X := by
          intro X
          simp [List.append_assoc]
        rw [e (two_digit_field d), e (two_digit_field d')]
        have base := lex_pad2_lt d d' hdg hdg' hDlt [] []
        rw [List.append_nil, List.append_nil] at base
        exact List.Lex.append_left _ base _
      · have hEq : d = d' := by omega
        subst hEq
        exact le_refl _

theorem month_key_le (n n' : ℕ) (h1 : 1 ≤ n) (hle : n ≤ n')
    (hy : 1000 ≤ (ord2ymd n).1) (hy' : (ord2ymd n').1 ≤ 9999) :
    month_key n ≤ month_key n' := by
  obtain ⟨y, m, d, h⟩ : ∃ y m d, ord2ymd n = (y, m, d) := ⟨_, _, _, rfl⟩
  obtain ⟨y', m', d', h'⟩ : ∃ y m d, ord2ymd n' = (y, m, d) := ⟨_, _, _, rfl⟩
  rw [h] at hy
  rw [h'] at hy'
  obtain ⟨he, hm1, hm2, hd1, hd2, hy0⟩ := ord2ymd_spec n y m d h1 h
  obtain ⟨he', hm1', hm2', hd1', hd2', hy0'⟩ := ord2ymd_spec n' y' m' d' (by omega) h'
  have lex := ord2ymd_lex_mono n n' y m d y' m' d' h1 hle h h'
  unfold month_key
  rw [h, h']
  show (⟨year_field y ++ '-' :: two_digit_field m⟩ : String) ≤
    ⟨year_field y' ++ '-' :: two_digit_field m'⟩
  rcases lex with hY | ⟨rfl, hM⟩
  · exact string_le_of_lex (lex_year_lt y y' hy hy' hY _ _)
  · rcases Nat.lt_or_ge m m' with hMlt | hMge
    · apply string_le_of_lex
      have base := lex_pad2_lt m m' (by omega) (by omega) hMlt [] []
      rw [List.append_nil, List.append_nil] at base
      rw [append_cons_eq (year_field y) '-' (two_digit_field m),
        append_cons_eq (year_field y) '-' (two_digit_field m')]
      exact List.Lex.append_left _ base _
    · have hEq : m = m' := by
        rcases hM with hMlt | ⟨hEq, _⟩
        · omega
        · exact hEq
      subst hEq
      exact le_refl _

theorem week_start_mod (n : ℕ) : week_start n % 7 = 0 := by
  rw [week_start_eq]
  omega

theorem strftime_U_lt_100 (n : ℕ) (h1 : 1 ≤ n) : strftime_U n < 100 := by
  have := strftime_U_le n h1
  omega

theorem week_key_le (n n' : ℕ) (h1 : 1 ≤ week_start n) (hle : n ≤ n')
    (hy : 1000 ≤ (ord2ymd (week_start n)).1) (hy' : (ord2ymd (week_start n')).1 ≤ 9999) :
    week_key n ≤ week_key n' := by
  have hww : week_start n ≤ week_start n' := by
    rw [week_start_eq, week_start_eq]
    omega
  have h1' : 1 ≤ week_start n' := by omega
  obtain ⟨y, m, d, h⟩ : ∃ y m d, ord2ymd (week_start n) = (y, m, d) := ⟨_, _, _, rfl⟩
  obtain ⟨y', m', d', h'⟩ : ∃ y m d, ord2ymd (week_start n') = (y, m, d) := ⟨_, _, _, rfl⟩
  rw [h] at hy
  rw [h'] at hy'
  have lex := ord2ymd_lex_mono (week_start n) (week_start n') y m d y' m' d' h1 hww h h'
  have hU : strftime_U (week_start n) < 100 := strftime_U_lt_100 _ h1
  have hU' : strftime_U (week_start n') < 100 := strftime_U_lt_100 _ h1'
  unfold week_key
  rw [h, h']
  show (⟨year_field y ++ '-' :: 'W' :: two_digit_field (strftime_U (week_start n))⟩ : String) ≤
    ⟨year_field y' ++ '-' :: 'W' :: two_digit_field (strftime_U (week_start n'))⟩
  rcases lex with hY | ⟨rfl, _⟩
  · exact string_le_of_lex (lex_year_lt y y' hy hy' hY _ _)
  · -- same year for both week starts: the week number is monotone
    obtain ⟨hj1, hj2, hy0⟩ := ord_year_bounds (week_start n) y m d h1 h
    obtain ⟨hj1', hj2', _⟩ := ord_year_bounds (week_start n') y m' d' h1' h'
    have hUle : strftime_U (week_start n) ≤ strftime_U (week_start n') := by
      simp only [strftime_U, tm_yday, tm_wday, h, h', week_start_mod]
      omega
    rcases Nat.lt_or_ge (strftime_U (week_start n)) (strftime_U (week_start n')) with hlt | hge
    · apply string_le_of_lex
      have base := lex_pad2_lt _ _ hU hU' hlt [] []
      rw [List.append_nil, List.append_nil] at base
      have e : ∀ X : List Char, year_field y ++ '-' :: 'W' :: X
          = (year_field y ++ ['-', 'W']) ++ X := by
        intro X
        simp [List.append_assoc]
      rw [e (two_digit_field (strftime_U (week_start n))),
        e (two_digit_field (strftime_U (week_start n')))]
      exact List.Lex.append_left _ base _
    · have hEq : strftime_U (week_start n) = strftime_U (week_start n') := by omega
      rw [hEq]

/-- All instants from a Sunday through the following Saturday share that
Sunday's week start, hence the same `%Y-W%U` key. -/
theorem same_week_same_key (n n2 : ℕ) (hs : n % 7 = 0) (hr : n ≤ n2) (hr2 : n2 ≤ n + 6) :
    week_key n2 = week_key n := by
  have e : week_start n2 = week_start n := by
    rw [week_start_eq, week_start_eq]
    omega
  unfold week_key
  rw [e]

/-- The Sunday one week later always renders a different `%Y-W%U` key:
within a year `%U` increases by one, and across a year boundary the year
field changes. -/
theorem next_sunday_diff_key (n : ℕ) (h1 : 1 ≤ n) (hs : n % 7 = 0) :
    week_key (n + 7) ≠ week_key n := by
  have hw : week_start n = n := by
    rw [week_start_eq, hs]
    omega
  have hw' : week_start (n + 7) = n + 7 := by
    rw [week_start_eq]
    omega
  obtain ⟨y, m, d, h⟩ : ∃ y m d, ord2ymd n = (y, m, d) := ⟨_, _, _, rfl⟩
  obtain ⟨y', m', d', h'⟩ : ∃ y m d, ord2ymd (n + 7) = (y, m, d) := ⟨_, _, _, rfl⟩
  obtain ⟨hj1, hj2, hy0⟩ := ord_year_bounds n y m d h1 h
  obtain ⟨hj1', hj2', hy0'⟩ := ord_year_bounds (n + 7) y' m' d' (by omega) h'
  have hyy : y ≤ y' := by
    have lex := ord2ymd_lex_mono n (n + 7) y m d y' m' d' h1 (by omega) h h'
    rcases lex with hY | ⟨rfl, _⟩
    · omega
    · exact le_refl _
  have hyy2 : y' ≤ y + 1 := by
    by_contra hc
    push_neg at hc
    have hm1 : ymd2ord (y + 2) 1 1 ≤ ymd2ord y' 1 1 := by
      have := days_before_year_mono (show y + 2 ≤ y' from by omega)
      rw [ymd2ord, ymd2ord, dbm_one, dbm_one]
      omega
    have hs1 : days_before_year (y + 2)
        = days_before_year (y + 1) + 365 + (if is_leap (y + 1) then 1 else 0) :=
      days_before_year_succ (y + 1) (by omega)
    have e1 : ymd2ord (y + 1) 1 1 = days_before_year (y + 1) + 1 := by rw [ymd2ord, dbm_one]
    have e2 : ymd2ord (y + 2) 1 1 = days_before_year (y + 2) + 1 := by rw [ymd2ord, dbm_one]
    obtain ⟨L, hL1, hLe⟩ : ∃ L, L ≤ 1 ∧ (if is_leap (y + 1) then 1 else 0) = L :=
      ⟨_, by split_ifs <;> omega, rfl⟩
    rw [hLe] at hs1
    omega
  intro hc
  unfold week_key at hc
  rw [hw, hw', h, h'] at hc
  have hdata : year_field y' ++ '-' :: 'W' :: two_digit_field (strftime_U (n + 7))
      = year_field y ++ '-' :: 'W' :: two_digit_field (strftime_U n) :=
    congrArg String.data hc
  by_cases hY : y' = y
  · subst hY
    -- same year: %U differs by exactly one
    have hUeq : strftime_U (n + 7) = strftime_U n + 1 := by
      simp only [strftime_U, tm_yday, tm_wday, h, h']
      omega
    have hU : strftime_U n < 100 := strftime_U_lt_100 n h1
    have hU' : strftime_U (n + 7) < 100 := strftime_U_lt_100 _ (by omega)
    have hfield : two_digit_field (strftime_U (n + 7)) = two_digit_field (strftime_U n) := by
      have := List.append_cancel_left hdata
      simp only [List.cons.injEq] at this
      exact this.2.2
    have := two_digit_field_inj _ _ hU' hU hfield
    omega
  · -- year changed: either the rendered year has a different length, or
    -- equal-length year fields with different values
    have hY1 : y' = y + 1 := by omega
    have hlen := congrArg List.length hdata
    simp only [List.length_append, List.length_cons] at hlen
    have hU : strftime_U n < 100 := strftime_U_lt_100 n h1
    have hU' : strftime_U (n + 7) < 100 := strftime_U_lt_100 _ (by omega)
    rw [two_digit_field_len _ hU, two_digit_field_len _ hU'] at hlen
    have hylen : (year_field y').length = (year_field y).length := by omega
    obtain ⟨hpre, _⟩ := List.append_inj hdata hylen
    have := year_field_inj y' y hpre
    omega

/-! ## Datetimes -/

/-- A Python `datetime`, as ordinal (`date.toordinal`, days since
`0001-01-01` with that day = 1) plus time of day.  `fromisoformat` only
produces years 1..9999 and in-range time fields. -/
structure PyDateTime where
  ord : ℕ
  hour : ℕ
  minute : ℕ
  second : ℕ
deriving DecidableEq, Repr

/-- Seconds since the epoch of ordinal 0: a faithful linearization of
datetime comparison. -/
def PyDateTime.toSec (t : PyDateTime) : ℕ :=
  ((t.ord * 24 + t.hour) * 60 + t.minute) * 60 + t.second

/-- Field ranges guaranteed by `datetime`. -/
abbrev ValidDT (t : PyDateTime) : Prop :=
  1 ≤ t.ord ∧ t.hour < 24 ∧ t.minute < 60 ∧ t.second < 60

/-- `strftime('%Y-%m-%d %H:00')`: the hour-bucket key of
`group_clients_by_hour`. -/
def hour_key (t : PyDateTime) : String :=
  ⟨year_field (ord2ymd t.ord).1 ++ '-' :: (two_digit_field (ord2ymd t.ord).2.1 ++
    '-' :: (two_digit_field (ord2ymd t.ord).2.2 ++
      ' ' :: (two_digit_field t.hour ++ [':', '0', '0'])))⟩

theorem hour_key_le (t t' : PyDateTime) (hv : ValidDT t) (hv' : ValidDT t')
    (hsec : t.toSec ≤ t'.toSec)
    (hy : 1000 ≤ (ord2ymd t.ord).1) (hy' : (ord2ymd t'.ord).1 ≤ 9999) :
    hour_key t ≤ hour_key t' := by
  obtain ⟨ho1, hh1, hmi1, hs1⟩ := hv
  obtain ⟨ho1', hh1', hmi1', hs1'⟩ := hv'
  have hcmp : t.ord < t'.ord ∨ (t.ord = t'.ord ∧ t.hour ≤ t'.hour) := by
    simp only [PyDateTime.toSec] at hsec
    rcases Nat.lt_trichotomy t.ord t'.ord with hc | hc | hc
    · exact Or.inl hc
    · refine Or.inr ⟨hc, ?_⟩
      rw [hc] at hsec
      omega
    · exfalso
      have : t'.ord + 1 ≤ t.ord := hc
      omega
  obtain ⟨y, m, d, h⟩ : ∃ y m d, ord2ymd t.ord = (y, m, d) := ⟨_, _, _, rfl⟩
  obtain ⟨y', m', d', h'⟩ : ∃ y m d, ord2ymd t'.ord = (y, m, d) := ⟨_, _, _, rfl⟩
  rw [h] at hy
  rw [h'] at hy'
  obtain ⟨he, hm1, hm2, hd1, hd2, hy0⟩ := ord2ymd_spec t.ord y m d ho1 h
  obtain ⟨he', hm1', hm2', hd1', hd2', hy0'⟩ := ord2ymd_spec t'.ord y' m' d' ho1' h'
  have hdg : d < 100 := by have := dim_le_31 y m; omega
  have hdg' : d' < 100 := by have := dim_le_31 y' m'; omega
  unfold hour_key
  rw [h, h']
  show (⟨year_field y ++ '-' :: (two_digit_field m ++ '-' :: (two_digit_field d ++
      ' ' :: (two_digit_field t.hour ++ [':', '0', '0'])))⟩ : String) ≤
    ⟨year_field y' ++ '-' :: (two_digit_field m' ++ '-' :: (two_digit_field d' ++
      ' ' :: (two_digit_field t'.hour ++ [':', '0', '0'])))⟩
  rcases hcmp with hlt | ⟨hordEq, hhle⟩
  · have lex := ord2ymd_lex_mono t.ord t'.ord y m d y' m' d' ho1 (by omega) h h'
    rcases lex with hY | ⟨rfl, hM⟩
    · exact string_le_of_lex (lex_year_lt y y' hy hy' hY _ _)
    · rcases hM with hMlt | ⟨rfl, hD⟩
      · apply string_le_of_lex
        rw [append_cons_eq (year_field y) '-'
            (two_digit_field m ++ '-' :: (two_digit_field d ++
              ' ' :: (two_digit_field t.hour ++ [':', '0', '0']))),
          append_cons_eq (year_field y) '-'
            (two_digit_field m' ++ '-' :: (two_digit_field d' ++
              ' ' :: (two_digit_field t'.hour ++ [':', '0', '0'])))]
        exact List.Lex.append_left _ (lex_pad2_lt m m' (by omega) (by omega) hMlt _ _) _
      · have hDne : d ≠ d' := by
          intro hEq
          subst hEq
          rw [he] at he'
          omega
        have hDlt : d < d' := by omega
        apply string_le_of_lex
        have e : ∀ X : List Char, year_field y ++ '-' :: (two_digit_field m ++ '-' :: X)
            = (year_field y ++ '-' :: (two_digit_field m ++ ['-'])) ++ X := by
          intro X
          simp [List.append_assoc]
        rw [e (two_digit_field d ++ ' ' :: (two_digit_field t.hour ++ [':', '0', '0'])),
          e (two_digit_field d' ++ ' ' :: (two_digit_field t'.hour ++ [':', '0', '0']))]
        exact List.Lex.append_left _ (lex_pad2_lt d d' hdg hdg' hDlt _ _) _
  · -- same ordinal: the date triple is literally the same
    have hTriple : (y, m, d) = (y', m', d') := by rw [← h, ← h', hordEq]
    simp only [Prod.mk.injEq] at hTriple
    obtain ⟨rfl, rfl, rfl⟩ := hTriple
    rcases Nat.lt_or_ge t.hour t'.hour with hHlt | hHge
    · apply string_le_of_lex
      have e : ∀ X : List Char,
          year_field y ++ '-' :: (two_digit_field m ++ '-' :: (two_digit_field d ++ ' ' :: X))
          = (year_field y ++ '-' :: (two_digit_field m ++ '-' :: (two_digit_field d ++ [' ']))) ++ X := by
        intro X
        simp [List.append_assoc]
      rw [e (two_digit_field t.hour ++ [':', '0', '0']),
        e (two_digit_field t'.hour ++ [':', '0', '0'])]
      exact List.Lex.append_left _ (lex_pad2_lt _ _ (by omega) (by omega) hHlt _ _) _
    · have hEq : t.hour = t'.hour := by omega
      rw [hEq]

/-! ## DataProcessor: records, grouping, statistics -/

/-- An observation record as handed to `DataProcessor` and
`ClientDatabase` (a Python dict).  `none` models an absent key or a `None`
value; `networkId` is the already-extracted `client.get('network', {}).get('id')`. -/
structure ClientRec where
  mac : Option String
  ip : Option String
  lastSeen : Option String
  firstSeen : Option String
  recentDeviceConnection : Option String
  networkId : Option String
deriving DecidableEq, Repr

/-- `DataProcessor.is_randomized_mac`: false on a falsy (empty) or
single-character string, else tests whether the uppercased second character
is one of 2/6/A/E. -/
def is_randomized_mac (mac : String) : Bool :=
  if mac = "" || mac.length < 2 then false
  else (['2', '6', 'A', 'E'] : List Char).contains (mac.data.getD 1 ' ').toUpper

/-- Python truthiness of an optional string: `None` and `""` are falsy. -/
def truthyStr (o : Option String) : Option String :=
  match o with
  | none => none
  | some s => if s = "" then none else some s

/-- One `defaultdict(list)` entry update: `grouped[key].append(client)`,
preserving dict insertion order. -/
def addToGroup (g : List (String × List ClientRec)) (k : String) (c : ClientRec) :
    List (String × List ClientRec) :=
  match g with
  | [] => [(k, [c])]
  | (k', l) :: t => if k' = k then (k', l ++ [c]) :: t else (k', l) :: addToGroup t k c

/-- The common loop of `group_clients_by_day` / `_week` / `_month` /
`_hour`: skip records without a `lastSeen` key, skip records whose
timestamp does not parse (Python logs a warning and continues), and append
every other record to the bucket of its key.  `parse` stands for
`datetime.fromisoformat` composed with the `.replace('Z', '+00:00')`
preprocessing; bucketing theorems hold for every parse function. -/
def groupRecordsBy (keyOf : PyDateTime → String) (parse : String → Option PyDateTime)
    (clients : List ClientRec) : List (String × List ClientRec) :=
  clients.foldl (fun g c =>
    match c.lastSeen with
    | none => g
    | some s =>
      match parse s with
      | none => g
      | some dt => addToGroup g (keyOf dt) c) []

/-- `DataProcessor.group_clients_by_day` (keys `strftime('%Y-%m-%d')`). -/
def group_clients_by_day (parse : String → Option PyDateTime) (clients : List ClientRec) :
    List (String × List ClientRec) :=
  groupRecordsBy (fun dt => day_key dt.ord) parse clients

/-- `DataProcessor.group_clients_by_week` (keys
`get_week_boundaries`'s week start rendered with `strftime('%Y-W%U')`). -/
def group_clients_by_week (parse : String → Option PyDateTime) (clients : List ClientRec) :
    List (String × List ClientRec) :=
  groupRecordsBy (fun dt => week_key dt.ord) parse clients

/-- `DataProcessor.group_clients_by_month` (keys `strftime('%Y-%m')`). -/
def group_clients_by_month (parse : String → Option PyDateTime) (clients : List ClientRec) :
    List (String × List ClientRec) :=
  groupRecordsBy (fun dt => month_key dt.ord) parse clients

/-- `DataProcessor.group_clients_by_hour` (keys `strftime('%Y-%m-%d %H:00')`). -/
def group_clients_by_hour (parse : String → Option PyDateTime) (clients : List ClientRec) :
    List (String × List ClientRec) :=
  groupRecordsBy hour_key parse clients

/-- Dictionary lookup `grouped[k]` (empty when the key is absent). -/
def groupLookup (g : List (String × List ClientRec)) (k : String) : List ClientRec :=
  match g with
  | [] => []
  | (k', l) :: t => if k' = k then l else groupLookup t k

/-- The bucket key a record would be filed under, when its timestamp is
present and parses. -/
def record_bucket_key (keyOf : PyDateTime → String) (parse : String → Option PyDateTime)
    (c : ClientRec) : Option String :=
  match c.lastSeen with
  | none => none
  | some s => (parse s).map keyOf

theorem addToGroup_ne_nil (g : List (String × List ClientRec)) (k : String) (c : ClientRec) :
    addToGroup g k c ≠ [] := by
  cases g with
  | nil => simp [addToGroup]
  | cons p t =>
    obtain ⟨k', l⟩ := p
    simp only [addToGroup]
    split_ifs <;> simp

theorem groupLookup_addToGroup (g : List (String × List ClientRec)) (k k' : String)
    (c : ClientRec) :
    groupLookup (addToGroup g k c) k'
      = if k = k' then groupLookup g k' ++ [c] else groupLookup g k' := by
  induction g with
  | nil =>
    simp only [addToGroup, groupLookup]
    by_cases h : k = k'
    · rw [if_pos h, if_pos h]
      simp
    · rw [if_neg h, if_neg h]
  | cons p t ih =>
    obtain ⟨k0, l⟩ := p
    simp only [addToGroup]
    by_cases h0 : k0 = k
    · rw [if_pos h0]
      subst h0
      simp only [groupLookup]
      by_cases h1 : k0 = k'
      · rw [if_pos h1, if_pos h1, if_pos h1]
      · rw [if_neg h1, if_neg h1, if_neg h1]
    · rw [if_neg h0]
      simp only [groupLookup]
      by_cases h1 : k0 = k'
      · rw [if_pos h1, if_pos h1]
        have hkk : ¬ k = k' := by
          intro hc
          exact h0 (by rw [h1, hc])
        rw [if_neg hkk]
      · rw [if_neg h1, if_neg h1, ih]

/-- The grouping loop, characterized: the bucket of key `k` holds exactly
the records whose timestamp parses to a datetime with key `k`, in input
order.  Records with a missing or unparsable `lastSeen` land in no bucket,
and the loop is total — the pass never aborts. -/
theorem groupRecordsBy_lookup (keyOf : PyDateTime → String)
    (parse : String → Option PyDateTime) (clients : List ClientRec) (k : String) :
    groupLookup (groupRecordsBy keyOf parse clients) k
      = clients.filter (fun c => record_bucket_key keyOf parse c == some k) := by
  have main : ∀ g : List (String × List ClientRec),
      groupLookup (clients.foldl (fun g c =>
        match c.lastSeen with
        | none => g
        | some s =>
          match parse s with
          | none => g
          | some dt => addToGroup g (keyOf dt) c) g) k
      = groupLookup g k ++ clients.filter (fun c => record_bucket_key keyOf parse c == some k) := by
    induction clients with
    | nil =>
      intro g
      simp
    | cons c cs ih =>
      intro g
      simp only [List.foldl_cons, List.filter_cons]
      cases hls : c.lastSeen with
      | none =>
        have hrb : record_bucket_key keyOf parse c = none := by
          simp [record_bucket_key, hls]
        simp only [hls, hrb]
        rw [ih]
        simp
      | some s =>
        cases hp : parse s with
        | none =>
          have hrb : record_bucket_key keyOf parse c = none := by
            simp [record_bucket_key, hls, hp]
          simp only [hls, hp, hrb]
          rw [ih]
          simp
        | some dt =>
          have hrb : record_bucket_key keyOf parse c = some (keyOf dt) := by
            simp [record_bucket_key, hls, hp]
          simp only [hls, hp, hrb]
          rw [ih, groupLookup_addToGroup]
          by_cases hk : keyOf dt = k
          · subst hk
            simp
          · rw [if_neg hk]
            have : ((some (keyOf dt) : Option String) == some k) = false := by
              simp [hk]
            rw [this]
            simp
  have := main []
  simpa [groupRecordsBy, groupLookup] using this

theorem groupRecordsBy_ne_nil (keyOf : PyDateTime → String)
    (parse : String → Option PyDateTime) (clients : List ClientRec)
    (hex : ∃ c ∈ clients, record_bucket_key keyOf parse c ≠ none) :
    groupRecordsBy keyOf parse clients ≠ [] := by
  have main : ∀ g : List (String × List ClientRec),
      (g ≠ [] ∨ ∃ c ∈ clients, record_bucket_key keyOf parse c ≠ none) →
      clients.foldl (fun g c =>
        match c.lastSeen with
        | none => g
        | some s =>
          match parse s with
          | none => g
          | some dt => addToGroup g (keyOf dt) c) g ≠ [] := by
    clear hex
    induction clients with
    | nil =>
      intro g hg
      rcases hg with hg | ⟨c, hc, _⟩
      · simpa using hg
      · simp at hc
    | cons c cs ih =>
      intro g hg
      simp only [List.foldl_cons]
      cases hls : c.lastSeen with
      | none =>
        simp only [hls]
        apply ih
        rcases hg with hg | ⟨c', hc', hk'⟩
        · exact Or.inl hg
        · rcases List.mem_cons.mp hc' with rfl | hmem
          · exfalso
            apply hk'
            simp [record_bucket_key, hls]
          · exact Or.inr ⟨c', hmem, hk'⟩
      | some s =>
        cases hp : parse s with
        | none =>
          simp only [hls, hp]
          apply ih
          rcases hg with hg | ⟨c', hc', hk'⟩
          · exact Or.inl hg
          · rcases List.mem_cons.mp hc' with rfl | hmem
            · exfalso
              apply hk'
              simp [record_bucket_key, hls, hp]
            · exact Or.inr ⟨c', hmem, hk'⟩
        | some dt =>
          simp only [hls, hp]
          apply ih
          exact Or.inl (addToGroup_ne_nil g (keyOf dt) c)
  exact main [] (Or.inr hex)

/-! ## count_unique_clients -/

/-- The five Python `set()` accumulators of `count_unique_clients`. -/
structure UCSets where
  macs : Finset String
  ips : Finset String
  rand : Finset String
  wireless : Finset String
  wired : Finset String

/-- One iteration of the `count_unique_clients` loop: a truthy `mac` is
added to the MAC set, to the randomized set when `is_randomized_mac`, and
to the wireless/wired set according to `recentDeviceConnection` (default
`'Unknown'`); a truthy `ip` is added to the IP set. -/
def ucStep (s : UCSets) (c : ClientRec) : UCSets :=
  let ct := c.recentDeviceConnection.getD "Unknown"
  let s1 := match truthyStr c.mac with
    | none => s
    | some m =>
      { s with
        macs := insert m s.macs,
        rand := if is_randomized_mac m then insert m s.rand else s.rand,
        wireless := if ct = "Wireless" then insert m s.wireless else s.wireless,
        wired := if ct = "Wired" then insert m s.wired else s.wired }
  match truthyStr c.ip with
  | none => s1
  | some i => { s1 with ips := insert i s1.ips }

/-- The dict returned by `count_unique_clients`.  `mac_ip_quot` models the
float `mac_ip_ratio` exactly over `ℚ`. -/
structure ClientStats where
  unique_macs : ℕ
  unique_ips : ℕ
  randomized_macs : ℕ
  wireless_clients : ℕ
  wired_clients : ℕ
  mac_ip_quot : ℚ
deriving DecidableEq, Repr

/-- `DataProcessor.count_unique_clients`. -/
def count_unique_clients (clients : List ClientRec) : ClientStats :=
  let s := clients.foldl ucStep ⟨∅, ∅, ∅, ∅, ∅⟩
  { unique_macs := s.macs.card
    unique_ips := s.ips.card
    randomized_macs := s.rand.card
    wireless_clients := s.wireless.card
    wired_clients := s.wired.card
    mac_ip_quot := if 0 < s.ips.card then (s.macs.card : ℚ) / (s.ips.card : ℚ) else 1 }

theorem ucStep_macs (s : UCSets) (c : ClientRec) :
    (ucStep s c).macs = match truthyStr c.mac with
      | none => s.macs
      | some m => insert m s.macs := by
  simp only [ucStep]
  cases truthyStr c.mac <;> cases truthyStr c.ip <;> rfl

theorem ucFold_macs (clients : List ClientRec) :
    ∀ s : UCSets, (clients.foldl ucStep s).macs
      = s.macs ∪ (clients.filterMap (fun c => truthyStr c.mac)).toFinset := by
  induction clients with
  | nil =>
    intro s
    simp
  | cons c cs ih =>
    intro s
    simp only [List.foldl_cons, List.filterMap_cons]
    rw [ih (ucStep s c), ucStep_macs]
    cases h : truthyStr c.mac with
    | none => simp
    | some m =>
      simp only [List.toFinset_cons]
      rw [Finset.insert_union, Finset.union_insert]

/-! ## The calculate averages pipeline -/

/-- Python `round(x, 2)` modelled over `ℚ`. -/
def round2 (q : ℚ) : ℚ := (round (q * 100) : ℚ) / 100

/-- Python's slice `l[-k:]` for a nonnegative count: for `k = 0` this is
`l[0:]`, the whole list — not the empty list. -/
def sliceLast {α : Type} (l : List α) (k : ℕ) : List α :=
  if k = 0 then l else l.drop (l.length - k)

/-- The averages dict produced by a `calculate_*_averages` call
(`days_sampled` / `weeks_sampled` / `months_sampled` are all modelled by
`periods_sampled`, and the details list by `period_details`). -/
structure PeriodAvg where
  avg_unique_mac_addresses : ℚ
  avg_unique_ip_addresses : ℚ
  avg_randomized_macs : ℚ
  avg_wireless_clients : ℚ
  avg_wired_clients : ℚ
  periods_sampled : ℕ
  period_details : List (String × ClientStats)
deriving DecidableEq, Repr

/-- The shared body of `calculate_daily_averages`,
`calculate_weekly_averages` and `calculate_monthly_averages`: sort the
bucket keys as Python `sorted` does (lexicographically), keep the trailing
`num` buckets (`[-num:]`), compute per-bucket statistics, return `None`
when no buckets remain, else the arithmetic means rounded to two
decimals. -/
def calculate_averages_from (grouped : List (String × List ClientRec)) (num : ℕ) :
    Option PeriodAvg :=
  let sortedKeys := (grouped.map Prod.fst).mergeSort (fun a b => decide (a ≤ b))
  let chosen := sliceLast sortedKeys num
  let details := chosen.map (fun k => (k, count_unique_clients (groupLookup grouped k)))
  if details = [] then none
  else some {
    avg_unique_mac_addresses :=
      round2 ((details.map (fun p => (p.2.unique_macs : ℚ))).sum / (details.length : ℚ))
    avg_unique_ip_addresses :=
      round2 ((details.map (fun p => (p.2.unique_ips : ℚ))).sum / (details.length : ℚ))
    avg_randomized_macs :=
      round2 ((details.map (fun p => (p.2.randomized_macs : ℚ))).sum / (details.length : ℚ))
    avg_wireless_clients :=
      round2 ((details.map (fun p => (p.2.wireless_clients : ℚ))).sum / (details.length : ℚ))
    avg_wired_clients :=
      round2 ((details.map (fun p => (p.2.wired_clients : ℚ))).sum / (details.length : ℚ))
    periods_sampled := details.length
    period_details := details }

/-- `DataProcessor.calculate_daily_averages`. -/
def calculate_daily_averages (parse : String → Option PyDateTime)
    (clients : List ClientRec) (num_days : ℕ) : Option PeriodAvg :=
  calculate_averages_from (group_clients_by_day parse clients) num_days

/-- `DataProcessor.calculate_weekly_averages`. -/
def calculate_weekly_averages (parse : String → Option PyDateTime)
    (clients : List ClientRec) (num_weeks : ℕ) : Option PeriodAvg :=
  calculate_averages_from (group_clients_by_week parse clients) num_weeks

/-- `DataProcessor.calculate_monthly_averages`. -/
def calculate_monthly_averages (parse : String → Option PyDateTime)
    (clients : List ClientRec) (num_months : ℕ) : Option PeriodAvg :=
  calculate_averages_from (group_clients_by_month parse clients) num_months

/-! ## ClientDatabase.store_clients -/

/-- A row of the `clients` table.  `mac_address` and `last_seen` are NOT
NULL columns; `network_id` is nullable.  `collected_at` is the call
timestamp. -/
structure DBRow where
  mac_address : String
  ip_address : Option String
  last_seen : String
  first_seen : Option String
  connection_type : Option String
  network_id : Option String
  collected_at : ℕ
deriving DecidableEq, Repr

/-- Whether inserting `(m, ls, nid)` violates
`UNIQUE(mac_address, last_seen, network_id)` against the current rows.
SQLite treats NULLs as pairwise distinct inside UNIQUE constraints, so a
NULL `network_id` never collides with anything. -/
def insert_conflict (rows : List DBRow) (m ls : String) (nid : Option String) : Bool :=
  match nid with
  | none => false
  | some v => rows.any (fun r =>
      decide (r.mac_address = m ∧ r.last_seen = ls ∧ r.network_id = some v))

/-- The per-record loop of `store_clients`: each INSERT either succeeds
(`new_records += 1`) or raises `sqlite3.IntegrityError` — a UNIQUE
collision, or a NOT NULL violation when `mac` or `lastSeen` is `None` —
which is caught and counted (`duplicate_records += 1`); the loop always
continues with the next record. -/
def store_clients_loop (t : ℕ) (clients : List ClientRec) (rows : List DBRow)
    (new_records duplicate_records : ℕ) : List DBRow × ℕ × ℕ :=
  match clients with
  | [] => (rows, new_records, duplicate_records)
  | c :: cs =>
    match c.mac, c.lastSeen with
    | some m, some ls =>
      if insert_conflict rows m ls c.networkId then
        store_clients_loop t cs rows new_records (duplicate_records + 1)
      else
        store_clients_loop t cs
          (rows ++ [⟨m, c.ip, ls, c.firstSeen, c.recentDeviceConnection, c.networkId, t⟩])
          (new_records + 1) duplicate_records
    | _, _ => store_clients_loop t cs rows new_records (duplicate_records + 1)

/-- A row of the `collection_runs` audit table. -/
structure RunRow where
  run_timestamp : ℕ
  organization_id : String
  organization_name : String
  clients_collected : ℕ
  timespan_days : ℕ
deriving DecidableEq, Repr

/-- `ClientDatabase.store_clients`: run the insert loop over the batch,
append exactly one collection-run row carrying the submitted count
`len(clients)`, and return the updated tables with
`(new_records, duplicate_records)`. -/
def store_clients (rows : List DBRow) (runs : List RunRow) (clients : List ClientRec)
    (org_id org_name : String) (timespan_days t : ℕ) :
    List DBRow × List RunRow × ℕ × ℕ :=
  let r := store_clients_loop t clients rows 0 0
  (r.1, runs ++ [⟨t, org_id, org_name, clients.length, timespan_days⟩], r.2.1, r.2.2)

theorem store_clients_loop_counts (t : ℕ) (clients : List ClientRec) :
    ∀ rows n d, (store_clients_loop t clients rows n d).2.1
      + (store_clients_loop t clients rows n d).2.2 = n + d + clients.length := by
  induction clients with
  | nil =>
    intro rows n d
    simp [store_clients_loop]
  | cons c cs ih =>
    intro rows n d
    rcases hm : c.mac with _ | m
    · simp only [store_clients_loop, hm]
      rw [ih]
      simp only [List.length_cons]
      omega
    · rcases hls : c.lastSeen with _ | ls
      · simp only [store_clients_loop, hm, hls]
        rw [ih]
        simp only [List.length_cons]
        omega
      · simp only [store_clients_loop, hm, hls]
        split_ifs with hc
        · rw [ih]
          simp only [List.length_cons]
          omega
        · rw [ih]
          simp only [List.length_cons]
          omega

theorem store_clients_loop_rows_ext (t : ℕ) (clients : List ClientRec) :
    ∀ rows n d, ∃ ext, (store_clients_loop t clients rows n d).1 = rows ++ ext := by
  induction clients with
  | nil =>
    intro rows n d
    exact ⟨[], by simp [store_clients_loop]⟩
  | cons c cs ih =>
    intro rows n d
    rcases hm : c.mac with _ | m
    · simp only [store_clients_loop, hm]
      exact ih rows n (d + 1)
    · rcases hls : c.lastSeen with _ | ls
      · simp only [store_clients_loop, hm, hls]
        exact ih rows n (d + 1)
      · simp only [store_clients_loop, hm, hls]
        split_ifs with hc
        · exact ih rows n (d + 1)
        · obtain ⟨ext, hext⟩ := ih
            (rows ++ [⟨m, c.ip, ls, c.firstSeen, c.recentDeviceConnection, c.networkId, t⟩])
            (n + 1) d
          exact ⟨_, by rw [hext, List.append_assoc]⟩

/-- The record cannot be accepted against `rows`: a NOT NULL violation or a
UNIQUE collision blocks it. -/
def db_blocked (rows : List DBRow) (c : ClientRec) : Prop :=
  c.mac = none ∨ c.lastSeen = none ∨
  (∃ m ls, c.mac = some m ∧ c.lastSeen = some ls ∧
    insert_conflict rows m ls c.networkId = true)

theorem insert_conflict_mono (rows ext : List DBRow) (m ls : String) (nid : Option String)
    (h : insert_conflict rows m ls nid = true) :
    insert_conflict (rows ++ ext) m ls nid = true := by
  cases nid with
  | none => simp [insert_conflict] at h
  | some v =>
    simp only [insert_conflict, List.any_append] at *
    rw [h]
    simp

theorem db_blocked_mono (rows ext : List DBRow) (c : ClientRec) (h : db_blocked rows c) :
    db_blocked (rows ++ ext) c := by
  rcases h with h | h | ⟨m, ls, h1, h2, h3⟩
  · exact Or.inl h
  · exact Or.inr (Or.inl h)
  · exact Or.inr (Or.inr ⟨m, ls, h1, h2, insert_conflict_mono rows ext m ls c.networkId h3⟩)

theorem store_clients_loop_blocked_after (t : ℕ) (clients : List ClientRec)
    (hnet : ∀ c ∈ clients, c.networkId.isSome) :
    ∀ rows n d c, c ∈ clients → db_blocked (store_clients_loop t clients rows n d).1 c := by
  induction clients with
  | nil =>
    intro rows n d c hc
    simp at hc
  | cons c0 cs ih =>
    intro rows n d c hc
    have hnet' : ∀ c ∈ cs, c.networkId.isSome :=
      fun c' hc' => hnet c' (List.mem_cons_of_mem _ hc')
    rcases List.mem_cons.mp hc with rfl | hmem
    · -- the head record is blocked in the final state
      rcases hm : c.mac with _ | m
      · simp only [store_clients_loop, hm]
        exact Or.inl hm
      · rcases hls : c.lastSeen with _ | ls
        · simp only [store_clients_loop, hm, hls]
          exact Or.inr (Or.inl hls)
        · simp only [store_clients_loop, hm, hls]
          split_ifs with hcf
          · obtain ⟨ext, hext⟩ := store_clients_loop_rows_ext t cs rows n (d + 1)
            rw [hext]
            exact Or.inr (Or.inr ⟨m, ls, hm, hls,
              insert_conflict_mono rows ext m ls c.networkId hcf⟩)
          · obtain ⟨v, hv⟩ := Option.isSome_iff_exists.mp (hnet c (List.mem_cons_self c cs))
            obtain ⟨ext, hext⟩ := store_clients_loop_rows_ext t cs
              (rows ++ [⟨m, c.ip, ls, c.firstSeen, c.recentDeviceConnection, c.networkId, t⟩])
              (n + 1) d
            rw [hext]
            refine Or.inr (Or.inr ⟨m, ls, hm, hls, ?_⟩)
            rw [hv]
            apply insert_conflict_mono
            simp [insert_conflict]
    · -- records of the tail are blocked by the inductive hypothesis
      rcases hm : c0.mac with _ | m
      · simp only [store_clients_loop, hm]
        exact ih hnet' rows n (d + 1) c hmem
      · rcases hls : c0.lastSeen with _ | ls
        · simp only [store_clients_loop, hm, hls]
          exact ih hnet' rows n (d + 1) c hmem
        · simp only [store_clients_loop, hm, hls]
          split_ifs with hcf
          · exact ih hnet' rows n (d + 1) c hmem
          · exact ih hnet' _ (n + 1) d c hmem

theorem store_clients_loop_all_blocked (t : ℕ) (clients : List ClientRec) :
    ∀ rows n d, (∀ c ∈ clients, db_blocked rows c) →
    store_clients_loop t clients rows n d = (rows, n, d + clients.length) := by
  induction clients with
  | nil =>
    intro rows n d _
    simp [store_clients_loop]
  | cons c cs ih =>
    intro rows n d hb
    have hbc := hb c (List.mem_cons_self c cs)
    have hbcs : ∀ c' ∈ cs, db_blocked rows c' := fun c' hc' => hb c' (List.mem_cons_of_mem _ hc')
    rcases hbc with hm | hls | ⟨m, ls, hm, hls, hcf⟩
    · simp only [store_clients_loop, hm]
      rw [ih rows n (d + 1) hbcs]
      simp only [List.length_cons]
      rw [show d + 1 + cs.length = d + (cs.length + 1) from by omega]
    · rcases hm2 : c.mac with _ | m
      · simp only [store_clients_loop, hm2]
        rw [ih rows n (d + 1) hbcs]
        simp only [List.length_cons]
        rw [show d + 1 + cs.length = d + (cs.length + 1) from by omega]
      · simp only [store_clients_loop, hm2, hls]
        rw [ih rows n (d + 1) hbcs]
        simp only [List.length_cons]
        rw [show d + 1 + cs.length = d + (cs.length + 1) from by omega]
    · simp only [store_clients_loop, hm, hls]
      rw [if_pos hcf]
      rw [ih rows n (d + 1) hbcs]
      simp only [List.length_cons]
      rw [show d + 1 + cs.length = d + (cs.length + 1) from by omega]

/-! ## Incremental collection planner (`collect_client_data`) -/

/-- Python `int()` applied to an exact real value: truncation toward
zero. -/
def pyInt (q : ℚ) : ℤ := if 0 ≤ q then ⌊q⌋ else ⌈q⌉

/-- The window computation of `collect_client_data` in the Incremental
state (store non-empty): `fetch_from = latest_dt - timedelta(hours=buffer_hours)`,
`hours_to_fetch = (now - fetch_from).total_seconds() / 3600`, then
`hours_to_fetch = max(hours_to_fetch, min_hours)`.  `latest` and `now` are
the two datetimes in seconds. -/
def hours_to_fetch (latest now : ℤ) (buffer_hours min_hours : ℚ) : ℚ :=
  let fetch_from : ℚ := (latest : ℚ) - buffer_hours * 3600
  max (((now : ℚ) - fetch_from) / 3600) min_hours

/-- `days_to_fetch = int(hours_to_fetch / 24) + 1`, then
`min(days_to_fetch, 30)` (the API maximum). -/
def days_to_fetch (latest now : ℤ) (buffer_hours min_hours : ℚ) : ℤ :=
  min (pyInt (hours_to_fetch latest now buffer_hours min_hours / 24) + 1) 30

/-- The incremental window formula exactly as §4.4 of the spec words it:
"convert to whole days by rounding up (`ceil(hours_needed / 24)`, plus one
extra day of margin)", clamped to the upstream maximum. -/
def spec_days_to_request (latest now : ℤ) (buffer_hours min_hours : ℚ) : ℤ :=
  min (⌈hours_to_fetch latest now buffer_hours min_hours / 24⌉ + 1) 30

/-- The amended formula: the floor of `hours_needed / 24` plus one day,
clamped to the upstream maximum. -/
def amended_days_to_request (latest now : ℤ) (buffer_hours min_hours : ℚ) : ℤ :=
  min (⌊hours_to_fetch latest now buffer_hours min_hours / 24⌋ + 1) 30

theorem min_hours_le_hours_to_fetch (latest now : ℤ) (bh mh : ℚ) :
    mh ≤ hours_to_fetch latest now bh mh := by
  simp only [hours_to_fetch]
  exact le_max_right _ _

theorem ord_year_le (n n' : ℕ) (h1 : 1 ≤ n) (hle : n ≤ n') :
    (ord2ymd n).1 ≤ (ord2ymd n').1 := by
  obtain ⟨y, m, d, h⟩ : ∃ y m d, ord2ymd n = (y, m, d) := ⟨_, _, _, rfl⟩
  obtain ⟨y', m', d', h'⟩ : ∃ y m d, ord2ymd n' = (y, m, d) := ⟨_, _, _, rfl⟩
  have lex := ord2ymd_lex_mono n n' y m d y' m' d' h1 hle h h'
  rw [h, h']
  show y ≤ y'
  rcases lex with hY | ⟨rfl, _⟩
  · omega
  · exact le_refl _

/-! ## The claims -/

/-- C1 (counterexample): at `latest = now` with the default 1.5-hour
buffer and minimum, the clamped window is 1.5 hours; the code requests
`int(1.5/24) + 1 = 1` day, while the spec formula
`ceil(hours_needed/24) + 1` gives 2. -/
theorem claim_c1_counterexample :
    days_to_fetch 0 0 (3/2) (3/2) = 1 ∧ spec_days_to_request 0 0 (3/2) (3/2) = 2 ∧
    days_to_fetch 0 0 (3/2) (3/2) ≠ spec_days_to_request 0 0 (3/2) (3/2) := by
  have hh : hours_to_fetch 0 0 (3/2) (3/2) = 3/2 := by
    simp only [hours_to_fetch]
    norm_num
  have hfl : (⌊(3:ℚ)/2/24⌋ : ℤ) = 0 := by
    rw [Int.floor_eq_iff]
    norm_num
  have hcl : (⌈(3:ℚ)/2/24⌉ : ℤ) = 1 := by
    rw [Int.ceil_eq_iff]
    norm_num
  refine ⟨?_, ?_, ?_⟩
  · simp only [days_to_fetch, pyInt, hh]
    rw [if_pos (by norm_num), hfl]
    decide
  · simp only [spec_days_to_request, hh, hcl]
    decide
  · simp only [days_to_fetch, spec_days_to_request, pyInt, hh, hcl]
    rw [if_pos (by norm_num), hfl]
    norm_num

/-- C1 (amended): with the default 1.5-hour buffer and minimum, the
planner's days-to-request equals `min(floor(hours_needed/24) + 1, 30)` —
the floor, not the ceiling, of the clamped window in days, plus the one
extra day of margin, capped at the upstream maximum of 30. -/
theorem claim_c1_amended (latest now : ℤ) :
    days_to_fetch latest now (3/2) (3/2) = amended_days_to_request latest now (3/2) (3/2) := by
  have hmin := min_hours_le_hours_to_fetch latest now (3/2) (3/2)
  have h0 : (0:ℚ) ≤ hours_to_fetch latest now (3/2) (3/2) / 24 := by
    apply div_nonneg _ (by norm_num)
    linarith
  simp only [days_to_fetch, amended_days_to_request, pyInt, if_pos h0]

/-- C7 (counterexample): with `latest_observed_at = now - 10 minutes`,
buffer 1.5h and minimum 1.5h, the clamped window is 5/3 hours (1h40m), not
1.5 hours — the minimum clamp does not bind — though exactly one day is
requested. -/
theorem claim_c7_counterexample :
    hours_to_fetch (-600) 0 (3/2) (3/2) = 5/3 ∧ (5/3 : ℚ) ≠ 3/2 ∧
    days_to_fetch (-600) 0 (3/2) (3/2) = 1 := by
  have hh : hours_to_fetch (-600) 0 (3/2) (3/2) = 5/3 := by
    simp only [hours_to_fetch]
    norm_num
  refine ⟨hh, by norm_num, ?_⟩
  have hfl : (⌊(5:ℚ)/3/24⌋ : ℤ) = 0 := by
    rw [Int.floor_eq_iff]
    norm_num
  simp only [days_to_fetch, pyInt, hh]
  rw [if_pos (by norm_num), hfl]
  decide

/-- C7 (amended): with the default 1.5-hour buffer and minimum the planner
always requests at least one day; for `latest_observed_at = now - 10
minutes` the clamped window is 5/3 hours (above the 1.5-hour minimum) and
exactly one day is requested. -/
theorem claim_c7_amended :
    (∀ latest now : ℤ, 1 ≤ days_to_fetch latest now (3/2) (3/2)) ∧
    (∀ now : ℤ, hours_to_fetch (now - 600) now (3/2) (3/2) = 5/3 ∧
      days_to_fetch (now - 600) now (3/2) (3/2) = 1) := by
  constructor
  · intro latest now
    have hmin := min_hours_le_hours_to_fetch latest now (3/2) (3/2)
    have h0 : (0:ℚ) ≤ hours_to_fetch latest now (3/2) (3/2) / 24 := by
      apply div_nonneg _ (by norm_num)
      linarith
    have hf : (0:ℤ) ≤ ⌊hours_to_fetch latest now (3/2) (3/2) / 24⌋ := Int.floor_nonneg.mpr h0
    simp only [days_to_fetch, pyInt, if_pos h0]
    omega
  · intro now
    have hh : hours_to_fetch (now - 600) now (3/2) (3/2) = 5/3 := by
      simp only [hours_to_fetch]
      have e : ((now:ℚ) - (((now - 600 : ℤ):ℚ) - 3/2*3600)) / 3600 = 5/3 := by
        field_simp
        push_cast
        ring
      rw [e, max_eq_left (by norm_num)]
    refine ⟨hh, ?_⟩
    have hfl : (⌊(5:ℚ)/3/24⌋ : ℤ) = 0 := by
      rw [Int.floor_eq_iff]
      norm_num
    simp only [days_to_fetch, pyInt, hh]
    rw [if_pos (by norm_num), hfl]
    decide

/-- C2 (amended): when every record of the batch carries a network id, a
second `store_clients` call with the identical batch counts the whole
batch as duplicates, accepts nothing, and leaves the `clients` table rows
unchanged; on any batch the first call splits it exactly into accepted
plus duplicate records. -/
theorem claim_c2_amended (rows rows1 rows2 : List DBRow) (runs runs1 runs2 : List RunRow)
    (clients : List ClientRec) (oid oname : String) (td t1 t2 : ℕ) (a1 d1 a2 d2 : ℕ)
    (hnet : ∀ c ∈ clients, c.networkId.isSome)
    (h1 : store_clients rows runs clients oid oname td t1 = (rows1, runs1, a1, d1))
    (h2 : store_clients rows1 runs1 clients oid oname td t2 = (rows2, runs2, a2, d2)) :
    d2 = clients.length ∧ a2 = 0 ∧ rows2 = rows1 ∧ a1 + d1 = clients.length := by
  simp only [store_clients, Prod.mk.injEq] at h1 h2
  obtain ⟨hr1, hru1, ha1, hd1⟩ := h1
  obtain ⟨hr2, hru2, ha2, hd2⟩ := h2
  have hblocked : ∀ c ∈ clients, db_blocked rows1 c := by
    intro c hc
    rw [← hr1]
    exact store_clients_loop_blocked_after t1 clients hnet rows 0 0 c hc
  have hall := store_clients_loop_all_blocked t2 clients rows1 0 0 hblocked
  have hcnt := store_clients_loop_counts t1 clients rows 0 0
  rw [ha1, hd1] at hcnt
  have e3 : d2 = clients.length := by
    rw [← hd2, hall]
    show 0 + clients.length = clients.length
    omega
  have e2 : a2 = 0 := by
    rw [← ha2, hall]
  have e1 : rows2 = rows1 := by
    rw [← hr2, hall]
  exact ⟨e3, e2, e1, by omega⟩

/-- A record whose `networkId` is absent (NULL in the database). -/
def nullNetRec : ClientRec :=
  ⟨some "aa:bb:cc:dd:ee:ff", none, some "2024-01-07T10:00:00Z", none, none, none⟩

/-- A record carrying a network id. -/
def netRec : ClientRec :=
  ⟨some "aa:bb:cc:dd:ee:ff", none, some "2024-01-07T10:00:00Z", none, none, some "N_123"⟩

/-- C2 (counterexample): for a record with a NULL `network_id`, SQLite's
UNIQUE constraint never fires (NULLs are pairwise distinct), so
re-submitting the identical one-record batch reports zero duplicates —
not the full batch size — accepts the record again, and grows the stored
rows. -/
theorem claim_c2_counterexample :
    (store_clients [] [] [nullNetRec] "org" "name" 30 0).2.2.2 = 0 ∧
    (store_clients
        (store_clients [] [] [nullNetRec] "org" "name" 30 0).1
        (store_clients [] [] [nullNetRec] "org" "name" 30 0).2.1
        [nullNetRec] "org" "name" 30 1).2.2.2 = 0 ∧
    (store_clients
        (store_clients [] [] [nullNetRec] "org" "name" 30 0).1
        (store_clients [] [] [nullNetRec] "org" "name" 30 0).2.1
        [nullNetRec] "org" "name" 30 1).2.2.1 = 1 ∧
    (store_clients
        (store_clients [] [] [nullNetRec] "org" "name" 30 0).1
        (store_clients [] [] [nullNetRec] "org" "name" 30 0).2.1
        [nullNetRec] "org" "name" 30 1).1
      ≠ (store_clients [] [] [nullNetRec] "org" "name" 30 0).1 := by
  refine ⟨by decide, by decide, by decide, by decide⟩

theorem claim_c2_amended_witness :
    ∃ rows1 runs1 a1 d1 rows2 runs2 a2 d2,
      store_clients [] [] [netRec] "org" "name" 30 0
        = (rows1, runs1, (a1 : ℕ), (d1 : ℕ)) ∧
      store_clients rows1 runs1 [netRec] "org" "name" 30 1
        = (rows2, runs2, a2, d2) ∧
      (d2 = [netRec].length ∧ a2 = 0 ∧ rows2 = rows1 ∧ a1 + d1 = [netRec].length) := by
  refine ⟨_, _, _, _, _, _, _, _, rfl, rfl, ?_⟩
  exact claim_c2_amended [] _ _ [] _ _ [netRec] "org" "name" 30 0 1 _ _ _ _
    (by decide) rfl rfl

/-- C3: a record observed on a Sunday at 00:00:00 and one observed at any
instant of the same Sunday-to-Saturday window are filed under the same
week-bucket key by the week bucketing; a record observed on the following
Sunday is filed under a different key. -/
theorem claim_c3 (parse : String → Option PyDateTime) (r1 r2 r3 : ClientRec)
    (t1 t2 t3 : PyDateTime)
    (hr1 : ∃ s, r1.lastSeen = some s ∧ parse s = some t1)
    (hr2 : ∃ s, r2.lastSeen = some s ∧ parse s = some t2)
    (hr3 : ∃ s, r3.lastSeen = some s ∧ parse s = some t3)
    (h1 : 1 ≤ t1.ord) (hsun : t1.ord % 7 = 0)
    (hh0 : t1.hour = 0) (hmi0 : t1.minute = 0) (hs0 : t1.second = 0)
    (hw1 : t1.ord ≤ t2.ord) (hw2 : t2.ord ≤ t1.ord + 6)
    (hnext : t3.ord = t1.ord + 7) :
    record_bucket_key (fun dt => week_key dt.ord) parse r2
      = record_bucket_key (fun dt => week_key dt.ord) parse r1 ∧
    record_bucket_key (fun dt => week_key dt.ord) parse r3
      ≠ record_bucket_key (fun dt => week_key dt.ord) parse r1 := by
  obtain ⟨s1, hl1, hp1⟩ := hr1
  obtain ⟨s2, hl2, hp2⟩ := hr2
  obtain ⟨s3, hl3, hp3⟩ := hr3
  simp only [record_bucket_key, hl1, hp1, hl2, hp2, hl3, hp3, Option.map_some']
  constructor
  · exact congrArg some (same_week_same_key t1.ord t2.ord hsun hw1 hw2)
  · intro hc
    have hk := Option.some.inj hc
    rw [hnext] at hk
    exact next_sunday_diff_key t1.ord h1 hsun hk

/-- A concrete parse table used to instantiate the bucketing theorems. -/
def wkparse : String → Option PyDateTime := fun s =>
  if s = "a" then some ⟨ymd2ord 2024 1 7, 0, 0, 0⟩
  else if s = "b" then some ⟨ymd2ord 2024 1 13, 23, 59, 59⟩
  else if s = "c" then some ⟨ymd2ord 2024 1 14, 0, 0, 0⟩
  else none

/-- Record observed Sunday 2024-01-07 00:00:00. -/
def wkrec1 : ClientRec := ⟨some "m1", none, some "a", none, none, none⟩

/-- Record observed Saturday 2024-01-13 23:59:59. -/
def wkrec2 : ClientRec := ⟨some "m2", none, some "b", none, none, none⟩

/-- Record observed Sunday 2024-01-14 00:00:00. -/
def wkrec3 : ClientRec := ⟨some "m3", none, some "c", none, none, none⟩

theorem claim_c3_witness :
    record_bucket_key (fun dt => week_key dt.ord) wkparse wkrec2
      = record_bucket_key (fun dt => week_key dt.ord) wkparse wkrec1 ∧
    record_bucket_key (fun dt => week_key dt.ord) wkparse wkrec3
      ≠ record_bucket_key (fun dt => week_key dt.ord) wkparse wkrec1 :=
  claim_c3 wkparse wkrec1 wkrec2 wkrec3
    ⟨ymd2ord 2024 1 7, 0, 0, 0⟩ ⟨ymd2ord 2024 1 13, 23, 59, 59⟩ ⟨ymd2ord 2024 1 14, 0, 0, 0⟩
    ⟨"a", rfl, by decide⟩ ⟨"b", rfl, by decide⟩ ⟨"c", rfl, by decide⟩
    (by decide) (by decide) rfl rfl rfl (by decide) (by decide) (by decide)

/-- C4 (counterexample): the `%Y` year field is unpadded, so for two valid
chronologically ordered dates 0999-12-31 and 1000-01-01 the day keys
compare the wrong way around: "999-12-31" > "1000-01-01" as strings. -/
theorem claim_c4_counterexample :
    ValidDT ⟨ymd2ord 999 12 31, 0, 0, 0⟩ ∧ ValidDT ⟨ymd2ord 1000 1 1, 0, 0, 0⟩ ∧
    PyDateTime.toSec ⟨ymd2ord 999 12 31, 0, 0, 0⟩
      ≤ PyDateTime.toSec ⟨ymd2ord 1000 1 1, 0, 0, 0⟩ ∧
    ¬ day_key (ymd2ord 999 12 31) ≤ day_key (ymd2ord 1000 1 1) := by
  refine ⟨by decide, by decide, by decide, ?_⟩
  rw [String.le_iff_toList_le, not_le]
  decide

/-- C4 (amended): for timestamps whose four-digit-year range is respected
(years 1000..9999, including the week-start of the earlier one), string
order of the generated keys agrees with chronological order for all four
key formats: day, week, month and calendar hour. -/
theorem claim_c4_amended (t1 t2 : PyDateTime) (hv1 : ValidDT t1) (hv2 : ValidDT t2)
    (hchron : t1.toSec ≤ t2.toSec)
    (hyw : 1000 ≤ (ord2ymd (week_start t1.ord)).1)
    (hy2 : (ord2ymd t2.ord).1 ≤ 9999) :
    day_key t1.ord ≤ day_key t2.ord ∧ week_key t1.ord ≤ week_key t2.ord ∧
    month_key t1.ord ≤ month_key t2.ord ∧ hour_key t1 ≤ hour_key t2 := by
  have ho1 : 1 ≤ t1.ord := hv1.1
  have ho2 : 1 ≤ t2.ord := hv2.1
  have hord : t1.ord ≤ t2.ord := by
    have hb1 := hv1.2.1
    have hb2 := hv1.2.2.1
    have hb3 := hv1.2.2.2
    have hb4 := hv2.2.1
    have hb5 := hv2.2.2.1
    have hb6 := hv2.2.2.2
    simp only [PyDateTime.toSec] at hchron
    omega
  have hws1 : 1 ≤ week_start t1.ord := by
    rcases Nat.eq_zero_or_pos (week_start t1.ord) with h0 | h0
    · rw [h0] at hyw
      have he : (ord2ymd 0).1 = 1 := by decide
      omega
    · exact h0
  have hwsle1 : week_start t1.ord ≤ t1.ord := by
    rw [week_start_eq]
    omega
  have hwsle2 : week_start t2.ord ≤ t2.ord := by
    rw [week_start_eq]
    omega
  have hwsmono : week_start t1.ord ≤ week_start t2.ord := by
    rw [week_start_eq, week_start_eq]
    omega
  have hy1 : 1000 ≤ (ord2ymd t1.ord).1 :=
    le_trans hyw (ord_year_le _ _ hws1 hwsle1)
  have hyw2 : (ord2ymd (week_start t2.ord)).1 ≤ 9999 :=
    le_trans (ord_year_le _ _ (le_trans hws1 hwsmono) hwsle2) hy2
  exact ⟨day_key_le _ _ ho1 hord hy1 hy2, week_key_le _ _ hws1 hord hyw hyw2,
    month_key_le _ _ ho1 hord hy1 hy2, hour_key_le t1 t2 hv1 hv2 hchron hy1 hy2⟩

theorem claim_c4_amended_witness :
    day_key (ymd2ord 2025 12 28) ≤ day_key (ymd2ord 2026 1 4) ∧
    week_key (ymd2ord 2025 12 28) ≤ week_key (ymd2ord 2026 1 4) ∧
    month_key (ymd2ord 2025 12 28) ≤ month_key (ymd2ord 2026 1 4) ∧
    hour_key ⟨ymd2ord 2025 12 28, 0, 0, 0⟩ ≤ hour_key ⟨ymd2ord 2026 1 4, 12, 30, 15⟩ :=
  claim_c4_amended ⟨ymd2ord 2025 12 28, 0, 0, 0⟩ ⟨ymd2ord 2026 1 4, 12, 30, 15⟩
    (by decide) (by decide) (by decide) (by decide) (by decide)

/-- C5: the ratio field of `count_unique_clients` is exactly 1 when the
distinct-IP count is zero and otherwise the exact quotient of the
distinct-MAC count by the distinct-IP count; and the distinct-MAC count
counts each truthy MAC string exactly once however often it repeats. -/
theorem claim_c5 (clients : List ClientRec) :
    ((count_unique_clients clients).mac_ip_quot =
      if (count_unique_clients clients).unique_ips = 0 then 1
      else ((count_unique_clients clients).unique_macs : ℚ)
        / ((count_unique_clients clients).unique_ips : ℚ)) ∧
    (count_unique_clients clients).unique_macs
      = (clients.filterMap (fun c => truthyStr c.mac)).dedup.length := by
  constructor
  · simp only [count_unique_clients]
    rcases Nat.eq_zero_or_pos (clients.foldl ucStep ⟨∅, ∅, ∅, ∅, ∅⟩).ips.card with h | h
    · rw [h]
      simp
    · rw [if_pos h, if_neg (by omega)]
  · simp only [count_unique_clients]
    rw [ucFold_macs clients ⟨∅, ∅, ∅, ∅, ∅⟩,
      show (⟨∅, ∅, ∅, ∅, ∅⟩ : UCSets).macs = ∅ from rfl, Finset.empty_union,
      List.card_toFinset]

/-- C6: `is_randomized_mac` is true exactly on strings of length at least
two whose second character uppercases to one of 2/6/A/E, and is false on
every string shorter than two characters. -/
theorem claim_c6 :
    (∀ mac : String, is_randomized_mac mac = true ↔
        ∃ c1 c2 rest, mac.data = c1 :: c2 :: rest ∧
          (c2.toUpper = '2' ∨ c2.toUpper = '6' ∨ c2.toUpper = 'A' ∨ c2.toUpper = 'E')) ∧
    (∀ mac : String, mac.data.length < 2 → is_randomized_mac mac = false) := by
  have key : ∀ l : List Char, is_randomized_mac ⟨l⟩ = true ↔
      ∃ c1 c2 rest, l = c1 :: c2 :: rest ∧
        (c2.toUpper = '2' ∨ c2.toUpper = '6' ∨ c2.toUpper = 'A' ∨ c2.toUpper = 'E') := by
    intro l
    rcases l with _ | ⟨c1, l2⟩
    · constructor
      · intro h
        exact absurd h (by decide)
      · rintro ⟨a, b, r, habs, -⟩
        simp at habs
    · rcases l2 with _ | ⟨c2, rest⟩
      · constructor
        · intro h
          have hC : ((⟨[c1]⟩ : String) = "" || (⟨[c1]⟩ : String).length < 2) = true := by
            have hlen1 : (⟨[c1]⟩ : String).length = 1 := rfl
            simp [hlen1]
          rw [is_randomized_mac, if_pos hC] at h
          cases h
        · rintro ⟨a, b, r, habs, -⟩
          simp at habs
      · have hne : (⟨c1 :: c2 :: rest⟩ : String) ≠ "" := by
          intro h
          have hd := congrArg String.data h
          simp at hd
        have hlen : (⟨c1 :: c2 :: rest⟩ : String).length = rest.length + 2 := by
          show (c1 :: c2 :: rest).length = rest.length + 2
          simp
        have hC : ((⟨c1 :: c2 :: rest⟩ : String) = ""
            || (⟨c1 :: c2 :: rest⟩ : String).length < 2) = false := by
          simp [hne, hlen]
        rw [is_randomized_mac, hC]
        simp only [Bool.false_eq_true, if_false]
        have hgd : ((⟨c1 :: c2 :: rest⟩ : String).data.getD 1 ' ') = c2 := rfl
        rw [hgd]
        constructor
        · intro h
          refine ⟨c1, c2, rest, rfl, ?_⟩
          have hmem : c2.toUpper ∈ (['2', '6', 'A', 'E'] : List Char) :=
            List.elem_iff.mp h
          simpa using hmem
        · rintro ⟨a, b, r, heq, hm⟩
          obtain ⟨rfl, rfl, rfl⟩ : c1 = a ∧ c2 = b ∧ rest = r := by
            simpa using heq
          apply List.elem_iff.mpr
          simpa using hm
  constructor
  · intro mac
    obtain ⟨l⟩ := mac
    exact key l
  · intro mac hl
    obtain ⟨l⟩ := mac
    rcases hb : is_randomized_mac ⟨l⟩ with _ | _
    · rfl
    · exfalso
      obtain ⟨a, b, r, heq, -⟩ := (key l).mp hb
      subst heq
      simp only [List.length_cons] at hl
      omega

theorem claim_c6_witness :
    is_randomized_mac "a2:bb:cc" = true ∧ is_randomized_mac "a" = false :=
  ⟨(claim_c6.1 "a2:bb:cc").mpr ⟨'a', '2', ":bb:cc".data, by decide, by decide⟩,
    claim_c6.2 "a" (by decide)⟩

/-- C8: on the empty record collection every `calculate_*_averages`
operation returns `none` — the absent result — rather than failing or
returning zeroed statistics. -/
theorem claim_c8 (parse : String → Option PyDateTime) (nd nw nm : ℕ) :
    calculate_daily_averages parse [] nd = none ∧
    calculate_weekly_averages parse [] nw = none ∧
    calculate_monthly_averages parse [] nm = none := by
  refine ⟨?_, ?_, ?_⟩ <;>
    simp [calculate_daily_averages, calculate_weekly_averages, calculate_monthly_averages,
      calculate_averages_from, group_clients_by_day, group_clients_by_week,
      group_clients_by_month, groupRecordsBy, sliceLast, List.mergeSort_nil]

/-- C9: bucketing by day, week and month is total and drops exactly the
records whose timestamp is missing or unparsable: every bucket holds
precisely the records whose parsed timestamp renders to that bucket key,
so all parsable records are bucketed and the rest are skipped. -/
theorem claim_c9 (parse : String → Option PyDateTime) (clients : List ClientRec) (k : String) :
    groupLookup (group_clients_by_day parse clients) k
      = clients.filter
          (fun c => record_bucket_key (fun dt => day_key dt.ord) parse c == some k) ∧
    groupLookup (group_clients_by_week parse clients) k
      = clients.filter
          (fun c => record_bucket_key (fun dt => week_key dt.ord) parse c == some k) ∧
    groupLookup (group_clients_by_month parse clients) k
      = clients.filter
          (fun c => record_bucket_key (fun dt => month_key dt.ord) parse c == some k) :=
  ⟨groupRecordsBy_lookup _ parse clients k, groupRecordsBy_lookup _ parse clients k,
    groupRecordsBy_lookup _ parse clients k⟩

/-- C10: with at least one parsable record, `calculate_daily_averages`
called with window size 0 returns a present result sampling every
available day bucket (`l[-0:]` is the whole list, so nothing is cut). -/
theorem claim_c10 (parse : String → Option PyDateTime) (clients : List ClientRec)
    (hex : ∃ c ∈ clients, record_bucket_key (fun dt => day_key dt.ord) parse c ≠ none) :
    ∃ res, calculate_daily_averages parse clients 0 = some res ∧
      res.periods_sampled = (group_clients_by_day parse clients).length := by
  have hg : group_clients_by_day parse clients ≠ [] :=
    groupRecordsBy_ne_nil _ parse clients hex
  simp only [calculate_daily_averages, calculate_averages_from]
  have hsl : ∀ l : List String, sliceLast l 0 = l := fun l => by simp [sliceLast]
  rw [hsl]
  have hlen : (((group_clients_by_day parse clients).map Prod.fst).mergeSort
      (fun a b => decide (a ≤ b))).length = (group_clients_by_day parse clients).length := by
    rw [List.length_mergeSort, List.length_map]
  have hne : ((group_clients_by_day parse clients).map Prod.fst).mergeSort
      (fun a b => decide (a ≤ b)) ≠ [] := by
    intro h0
    apply hg
    have h2 := congrArg List.length h0
    rw [hlen] at h2
    simpa using h2
  have hne2 : (((group_clients_by_day parse clients).map Prod.fst).mergeSort
      (fun a b => decide (a ≤ b))).map
        (fun k => (k, count_unique_clients (groupLookup (group_clients_by_day parse clients) k)))
      ≠ [] := by
    intro h0
    apply hne
    cases hx : ((group_clients_by_day parse clients).map Prod.fst).mergeSort
        (fun a b => decide (a ≤ b)) with
    | nil => rfl
    | cons a t =>
      rw [hx] at h0
      simp at h0
  rw [if_neg hne2]
  refine ⟨_, rfl, ?_⟩
  show ((((group_clients_by_day parse clients).map Prod.fst).mergeSort
      (fun a b => decide (a ≤ b))).map
        (fun k => (k, count_unique_clients (groupLookup (group_clients_by_day parse clients) k)))).length
      = (group_clients_by_day parse clients).length
  rw [List.length_map]
  exact hlen

/-- A one-entry parse table for the window-size-zero witness. -/
def dayparse : String → Option PyDateTime := fun s =>
  if s = "2024-01-07T10:00:00Z" then some ⟨ymd2ord 2024 1 7, 10, 0, 0⟩ else none

/-- A record parsable by `dayparse`. -/
def dayrec : ClientRec :=
  ⟨some "aa:bb:cc:dd:ee:f0", none, some "2024-01-07T10:00:00Z", none, none, none⟩

theorem claim_c10_witness :
    ∃ res, calculate_daily_averages dayparse [dayrec] 0 = some res ∧
      res.periods_sampled = (group_clients_by_day dayparse [dayrec]).length :=
  claim_c10 dayparse [dayrec] ⟨dayrec, List.mem_cons_self _ _, by decide⟩
